import Mathlib

/-!
Verification of the DataForge secret-obfuscation engine.

Python strings are modelled at the byte level (`Bytes := List Nat`, each
element a byte value); the structural characters of the formats ('=', '\n',
'#', base64 alphabets) are all ASCII, so the byte-level model is faithful for
the ASCII documents the well-formedness predicates require.  The third-party
cryptographic primitives (scrypt, HMAC-SHA-256, the AES block permutation)
are not part of the repository; they enter as a `CryptoPrims` bundle whose
only assumed facts are the block-cipher inverse law and byte/length
preservation.  Everything the repository itself implements — key
composition, per-entry key derivation, CBC chaining with PKCS7 padding,
base64 coding, key-name tokenisation, mapping construction, signatures and
the two document codecs — is defined here following the source.
-/

abbrev Bytes := List Nat

/-- Python `str.strip()` whitespace test, restricted to ASCII byte values. -/
def isPySpace (b : Nat) : Bool :=
  b == 32 || b == 9 || b == 10 || b == 11 || b == 12 || b == 13 ||
  b == 28 || b == 29 || b == 30 || b == 31

/-- Python `s.strip()` on a byte string: drop whitespace from both ends. -/
def pyStrip (bs : Bytes) : Bytes :=
  ((bs.dropWhile isPySpace).reverse.dropWhile isPySpace).reverse

/-- Python `s.strip("=")`: drop `'='` (byte 61) from both ends. -/
def stripEqChar (bs : Bytes) : Bytes :=
  ((bs.dropWhile (· == 61)).reverse.dropWhile (· == 61)).reverse

/-- Python `s.split("=", 1)` under the guard `"=" in s`: the part before the
first `'='` and the part after it. -/
def pySplitEq1 (bs : Bytes) : Bytes × Bytes :=
  (bs.takeWhile (· != 61), (bs.dropWhile (· != 61)).drop 1)

/-- Python `dict.get` on an insertion-ordered association list. -/
def dictGet (k : Bytes) (d : List (Bytes × Bytes)) : Option Bytes :=
  (d.find? (fun p => p.1 == k)).map (·.2)

/-- Python `d[k] = v` on an insertion-ordered association list: overwrite in
place if the key exists, else append. -/
def dictInsert (k v : Bytes) (d : List (Bytes × Bytes)) : List (Bytes × Bytes) :=
  if d.any (fun p => p.1 == k) then d.map (fun p => if p.1 == k then (k, v) else p)
  else d ++ [(k, v)]

/-- The standard base64 alphabet (RFC 4648), as byte values. -/
def stdAlphabet : List Nat :=
  [65, 66, 67, 68, 69, 70, 71, 72, 73, 74, 75, 76, 77, 78, 79, 80, 81, 82,
   83, 84, 85, 86, 87, 88, 89, 90,
   97, 98, 99, 100, 101, 102, 103, 104, 105, 106, 107, 108, 109, 110, 111,
   112, 113, 114, 115, 116, 117, 118, 119, 120, 121, 122,
   48, 49, 50, 51, 52, 53, 54, 55, 56, 57, 43, 47]

/-- The URL-safe base64 alphabet (RFC 4648 §5), as byte values. -/
def urlAlphabet : List Nat :=
  [65, 66, 67, 68, 69, 70, 71, 72, 73, 74, 75, 76, 77, 78, 79, 80, 81, 82,
   83, 84, 85, 86, 87, 88, 89, 90,
   97, 98, 99, 100, 101, 102, 103, 104, 105, 106, 107, 108, 109, 110, 111,
   112, 113, 114, 115, 116, 117, 118, 119, 120, 121, 122,
   48, 49, 50, 51, 52, 53, 54, 55, 56, 57, 45, 95]

/-- Base64 encoding over alphabet `A`, with `'='` (61) padding, as performed
by Python `base64.b64encode` / `base64.urlsafe_b64encode`. -/
def b64encode (A : List Nat) : Bytes → Bytes
  | a :: b :: c :: rest =>
      A.getD (a / 4) 0 :: A.getD ((a % 4) * 16 + b / 16) 0 ::
      A.getD ((b % 16) * 4 + c / 64) 0 :: A.getD (c % 64) 0 :: b64encode A rest
  | [a, b] =>
      [A.getD (a / 4) 0, A.getD ((a % 4) * 16 + b / 16) 0, A.getD ((b % 16) * 4) 0, 61]
  | [a] => [A.getD (a / 4) 0, A.getD ((a % 4) * 16) 0, 61, 61]
  | [] => []

/-- Base64 encoding without the trailing `'='` padding characters. -/
def b64encodeNoPad (A : List Nat) : Bytes → Bytes
  | a :: b :: c :: rest =>
      A.getD (a / 4) 0 :: A.getD ((a % 4) * 16 + b / 16) 0 ::
      A.getD ((b % 16) * 4 + c / 64) 0 :: A.getD (c % 64) 0 :: b64encodeNoPad A rest
  | [a, b] =>
      [A.getD (a / 4) 0, A.getD ((a % 4) * 16 + b / 16) 0, A.getD ((b % 16) * 4) 0]
  | [a] => [A.getD (a / 4) 0, A.getD ((a % 4) * 16) 0]
  | [] => []

/-- Base64 decoding over alphabet `A` (Python `base64.b64decode`), honouring
`'='` padding. -/
def b64decode (A : List Nat) : Bytes → Bytes
  | c1 :: c2 :: c3 :: c4 :: rest =>
      if c3 == 61 then [A.indexOf c1 * 4 + A.indexOf c2 / 16]
      else if c4 == 61 then
        [A.indexOf c1 * 4 + A.indexOf c2 / 16,
         (A.indexOf c2 % 16) * 16 + A.indexOf c3 / 4]
      else
        (A.indexOf c1 * 4 + A.indexOf c2 / 16) ::
        ((A.indexOf c2 % 16) * 16 + A.indexOf c3 / 4) ::
        ((A.indexOf c3 % 4) * 64 + A.indexOf c4) :: b64decode A rest
  | _ => []

/-- Base64 decoding of an unpadded encoding. -/
def b64decodeNoPad (A : List Nat) : Bytes → Bytes
  | c1 :: c2 :: c3 :: c4 :: rest =>
      (A.indexOf c1 * 4 + A.indexOf c2 / 16) ::
      ((A.indexOf c2 % 16) * 16 + A.indexOf c3 / 4) ::
      ((A.indexOf c3 % 4) * 64 + A.indexOf c4) :: b64decodeNoPad A rest
  | [c1, c2, c3] =>
      [A.indexOf c1 * 4 + A.indexOf c2 / 16,
       (A.indexOf c2 % 16) * 16 + A.indexOf c3 / 4]
  | [c1, c2] => [A.indexOf c1 * 4 + A.indexOf c2 / 16]
  | _ => []

/-- The facts about a base64 alphabet that the round-trip proofs use. -/
def GoodAlphabet (A : List Nat) : Prop :=
  ∀ i, i < 64 →
    A.indexOf (A.getD i 0) = i ∧ A.getD i 0 ≠ 61 ∧ isPySpace (A.getD i 0) = false ∧
    A.getD i 0 ≠ 10 ∧ A.getD i 0 < 256

/-- Dropping the trailing run of `'='` characters. -/
def dropTailEq (bs : Bytes) : Bytes := (bs.reverse.dropWhile (· == 61)).reverse

/-- PKCS7 padding to the AES block size of 16 bytes (128 bits). -/
def pkcs7pad (bs : Bytes) : Bytes :=
  bs ++ List.replicate (16 - bs.length % 16) (16 - bs.length % 16)

/-- PKCS7 unpadding with full validation, as the cryptography library's
unpadder performs it; `none` models the raised `ValueError`. -/
def pkcs7unpad (bs : Bytes) : Option Bytes :=
  if bs.length % 16 = 0 ∧ bs ≠ [] then
    if 1 ≤ bs.getLastD 0 ∧ bs.getLastD 0 ≤ 16 ∧
        (bs.drop (bs.length - bs.getLastD 0)).all (· == bs.getLastD 0) = true then
      some (bs.take (bs.length - bs.getLastD 0))
    else none
  else none

/-- Bytewise XOR (`zipWith`), the CBC chaining operation. -/
def xorBytes (a b : Bytes) : Bytes := List.zipWith (fun x y => x ^^^ y) a b

/-- Splitting a byte string into consecutive 16-byte cipher blocks, with a
fuel argument bounding the recursion depth (the caller passes the length). -/
def chunk16Go : Nat → Bytes → List Bytes
  | _, [] => []
  | 0, b :: t => [b :: t]
  | fuel + 1, b :: t => (b :: t).take 16 :: chunk16Go fuel ((b :: t).drop 16)

/-- Splitting a byte string into consecutive 16-byte cipher blocks. -/
def chunk16 (bs : Bytes) : List Bytes := chunk16Go bs.length bs

/-- The cryptographic primitives the repository calls from the
`cryptography` package.  `aesEnc`/`aesDec` are the AES-256 block
permutation and its inverse; `scrypt` the Scrypt KDF (n=2^14, r=8, p=1,
32-byte output); `hmacSHA256` the keyed hash.  The three laws are the only
facts about them the proofs use. -/
structure CryptoPrims where
  scrypt : Bytes → Bytes → Bytes
  hmacSHA256 : Bytes → Bytes → Bytes
  aesEnc : Bytes → Bytes → Bytes
  aesDec : Bytes → Bytes → Bytes
  aesDec_enc : ∀ k b, (∀ x ∈ b, x < 256) → aesDec k (aesEnc k b) = b
  aesEnc_len : ∀ k b, (aesEnc k b).length = b.length
  aesEnc_lt : ∀ k b, ∀ x ∈ aesEnc k b, x < 256

/-- CBC-mode encryption over a list of plaintext blocks, chaining from the
previous ciphertext block (initially the IV). -/
def cbcEncBlocks (f : Bytes → Bytes) : Bytes → List Bytes → List Bytes
  | _, [] => []
  | prev, b :: rest =>
      f (xorBytes b prev) :: cbcEncBlocks f (f (xorBytes b prev)) rest

/-- CBC-mode decryption over a list of ciphertext blocks. -/
def cbcDecBlocks (g : Bytes → Bytes) : Bytes → List Bytes → List Bytes
  | _, [] => []
  | prev, c :: rest => xorBytes (g c) prev :: cbcDecBlocks g c rest

/-- AES-CBC encryption of a padded byte string. -/
def cbcEncrypt (P : CryptoPrims) (key iv data : Bytes) : Bytes :=
  (cbcEncBlocks (P.aesEnc key) iv (chunk16 data)).flatten

/-- AES-CBC decryption of a ciphertext byte string. -/
def cbcDecrypt (P : CryptoPrims) (key iv data : Bytes) : Bytes :=
  (cbcDecBlocks (P.aesDec key) iv (chunk16 data)).flatten

/-- Key-name tokenisation shared by all codecs:
`base64.urlsafe_b64encode(key_name.encode()).decode().strip("=")`. -/
def tokenize (key_name : Bytes) : Bytes := stripEqChar (b64encode urlAlphabet key_name)

/-- Diagnostics the scripts print while deobfuscating. -/
inductive Msg
  | tamper
  | unknownKey (token : Bytes)
  | decryptErr (key_name : Bytes)
deriving DecidableEq, Repr

/-- Exceptions that escape a deobfuscation run uncaught. -/
inductive PyError
  | keyError (token : Bytes)
  | valueError
deriving DecidableEq, Repr

instance exceptDecEq {e a : Type} [DecidableEq e] [DecidableEq a] :
    DecidableEq (Except e a) := fun x y =>
  match x, y with
  | Except.ok u, Except.ok v =>
    if h : u = v then isTrue (by rw [h])
    else isFalse (by intro hc; injection hc with h2; exact h h2)
  | Except.ok u, Except.error w => isFalse (by intro hc; cases hc)
  | Except.error w, Except.ok v => isFalse (by intro hc; cases hc)
  | Except.error w, Except.error z =>
    if h : w = z then isTrue (by rw [h])
    else isFalse (by intro hc; injection hc with h2; exact h h2)

/-- The persisted mapping artifact `{salt, mapping, signature?}` (salt kept
base64-encoded as in the JSON file). -/
structure MappingArtifact where
  saltB64 : Bytes
  mapping : List (Bytes × Bytes)
  signature : Option Bytes
deriving DecidableEq, Repr

/-- The bytes of the text `"# UNKNOWN KEY: "`. -/
def diagUnknown : Bytes := [35, 32, 85, 78, 75, 78, 79, 87, 78, 32, 75, 69, 89, 58, 32]

/-- The bytes of the text `"# ERROR decrypting "`. -/
def diagErrHead : Bytes :=
  [35, 32, 69, 82, 82, 79, 82, 32, 100, 101, 99, 114, 121, 112, 116, 105, 110, 103, 32]

/-- The bytes of the text `": Possible tampering or wrong app key"`. -/
def diagErrTailApp : Bytes :=
  [58, 32, 80, 111, 115, 115, 105, 98, 108, 101, 32, 116, 97, 109, 112, 101, 114,
   105, 110, 103, 32, 111, 114, 32, 119, 114, 111, 110, 103, 32, 97, 112, 112, 32,
   107, 101, 121]

/-- The bytes of the text `": Possible mapping tampering"`. -/
def diagErrTailSimple : Bytes :=
  [58, 32, 80, 111, 115, 115, 105, 98, 108, 101, 32, 109, 97, 112, 112, 105, 110,
   103, 32, 116, 97, 109, 112, 101, 114, 105, 110, 103]

/-- Serialisation of a key-value document as `.env` lines `name=value\n`. -/
def serializeEnv (recs : List (Bytes × Bytes)) : List Bytes :=
  recs.map (fun r => r.1 ++ 61 :: r.2 ++ [10])

/-- A well-formed `KEY=value` record for the line codec: a nonempty ASCII key
containing no separator, ASCII value, no line breaks, and no strippable
whitespace at the two ends of the serialized line. -/
def WfRecord (r : Bytes × Bytes) : Prop :=
  r.1 ≠ [] ∧ 61 ∉ r.1 ∧ (∀ b ∈ r.1, b < 128) ∧ (∀ b ∈ r.2, b < 128) ∧
  10 ∉ r.1 ∧ 13 ∉ r.1 ∧ 10 ∉ r.2 ∧ 13 ∉ r.2 ∧
  isPySpace (r.1.headD 0) = false ∧
  (r.2 ≠ [] → isPySpace (r.2.getLastD 0) = false)

instance (r : Bytes × Bytes) : Decidable (WfRecord r) := by
  unfold WfRecord; infer_instance

namespace AppEnv

/-- Source `src/app/scripts/obfuscator_env.py::generate_key`: Scrypt over the
composite secret `f"{password}:{app_key}"` (58 is `':'`). -/
def generate_key (P : CryptoPrims) (password app_key salt : Bytes) : Bytes :=
  P.scrypt (password ++ 58 :: app_key) salt

/-- Source `derive_value_specific_key`: HMAC-SHA-256 of the original key name
keyed by the base key. -/
def derive_value_specific_key (P : CryptoPrims) (base_key original_key_name : Bytes) :
    Bytes :=
  P.hmacSHA256 base_key original_key_name

/-- Source `encrypt_value`: AES-CBC under the value-specific key with the
fresh random IV, PKCS7 padding, base64 of IV ‖ ciphertext. -/
def encrypt_value (P : CryptoPrims) (value key original_key_name iv : Bytes) : Bytes :=
  let value_key := derive_value_specific_key P key original_key_name
  b64encode stdAlphabet (iv ++ cbcEncrypt P value_key iv (pkcs7pad value))

/-- Source `decrypt_value`; `none` models the raised exception (bad padding). -/
def decrypt_value (P : CryptoPrims) (encrypted_value key original_key_name : Bytes) :
    Option Bytes :=
  let value_key := derive_value_specific_key P key original_key_name
  let data := b64decode stdAlphabet encrypted_value
  pkcs7unpad (cbcDecrypt P value_key (data.take 16) (data.drop 16))

/-- Source `generate_file_signature`: base64 of HMAC-SHA-256 of the content
under the derived key. -/
def generate_file_signature (P : CryptoPrims) (content key : Bytes) : Bytes :=
  b64encode stdAlphabet (P.hmacSHA256 key content)

/-- One iteration of the write loop in `obfuscate_env_file`; the state is
(lines already written to the output file, obfuscation_mapping, records
seen so far).  Lines without `'='` leave the state unchanged. -/
def obfStep (P : CryptoPrims) (key : Bytes) (ivs : List Bytes)
    (st : List Bytes × List (Bytes × Bytes) × Nat) (line : Bytes) :
    List Bytes × List (Bytes × Bytes) × Nat :=
  if 61 ∈ line then
    let s := pyStrip line
    let key_name := (pySplitEq1 s).1
    let value := (pySplitEq1 s).2
    let obfuscated_key := tokenize key_name
    let encrypted_value := encrypt_value P value key key_name (ivs.getD st.2.2 [])
    (st.1 ++ [obfuscated_key ++ 61 :: encrypted_value ++ [10]],
     dictInsert obfuscated_key key_name st.2.1, st.2.2 + 1)
  else st

/-- Source `obfuscate_env_file`.  File I/O is modelled by lists: the input
file as its `readlines()` list (each line keeping its `'\n'`), the fresh salt
and the `os.urandom(16)` IV stream as parameters.  Returns the lines written
to the output file and the mapping artifact written afterwards. -/
def obfuscate_env_file (P : CryptoPrims) (input_lines : List Bytes)
    (password app_key salt : Bytes) (ivs : List Bytes) :
    List Bytes × MappingArtifact :=
  let key := generate_key P password app_key salt
  let st := input_lines.foldl (obfStep P key ivs) ([], [], 0)
  let file_signature := generate_file_signature P st.1.flatten key
  (st.1, ⟨b64encode stdAlphabet salt, st.2.1, some file_signature⟩)

/-- The output-file content after only the first `k` input lines have been
processed: the write happens inside the loop, so these lines are already on
disk if the pass dies at line `k`. -/
def obfuscate_env_written (P : CryptoPrims) (input_lines : List Bytes)
    (password app_key salt : Bytes) (ivs : List Bytes) (k : Nat) : List Bytes :=
  ((input_lines.take k).foldl
    (obfStep P (generate_key P password app_key salt) ivs) ([], [], 0)).1

/-- One line of the restore loop in `deobfuscate_env_file`: the lines written
to the output file and the diagnostics printed for this input line.  The
`original_key = []` case mirrors Python's falsy test `if not original_key`. -/
def deobLine (P : CryptoPrims) (mapping : List (Bytes × Bytes)) (key line : Bytes) :
    List Bytes × List Msg :=
  if 61 ∈ line then
    match dictGet (pySplitEq1 (pyStrip line)).1 mapping with
    | none => ([diagUnknown ++ (pySplitEq1 (pyStrip line)).1 ++ [10]],
               [Msg.unknownKey (pySplitEq1 (pyStrip line)).1])
    | some original_key =>
      if original_key = [] then
        ([diagUnknown ++ (pySplitEq1 (pyStrip line)).1 ++ [10]],
         [Msg.unknownKey (pySplitEq1 (pyStrip line)).1])
      else
        match decrypt_value P (pySplitEq1 (pyStrip line)).2 key original_key with
        | some v => ([original_key ++ 61 :: v ++ [10]], [])
        | none => ([diagErrHead ++ original_key ++ diagErrTailApp ++ [10]],
                   [Msg.decryptErr original_key])
  else ([], [])

/-- Source `deobfuscate_env_file`.  Returns the output-file lines and the
diagnostics printed (the signature warning first, then per-record messages);
the `stored ≠ []` guard mirrors Python's truthiness test
`if stored_signature:`. -/
def deobfuscate_env_file (P : CryptoPrims) (input_lines : List Bytes)
    (art : MappingArtifact) (password app_key : Bytes) : List Bytes × List Msg :=
  let salt := b64decode stdAlphabet art.saltB64
  let key := generate_key P password app_key salt
  let sigMsgs :=
    match art.signature with
    | some stored =>
      if stored ≠ [] then
        if generate_file_signature P input_lines.flatten key ≠ stored then [Msg.tamper]
        else []
      else []
    | none => []
  let results := input_lines.map (deobLine P art.mapping key)
  ((results.map Prod.fst).flatten, sigMsgs ++ (results.map Prod.snd).flatten)

end AppEnv

namespace SimpleEnv

/-- Source `src/scripts/obfuscator_env.py::generate_key`: Scrypt over the
password alone. -/
def generate_key (P : CryptoPrims) (password salt : Bytes) : Bytes :=
  P.scrypt password salt

/-- Source `derive_value_specific_key` (identical to the app variant). -/
def derive_value_specific_key (P : CryptoPrims) (base_key original_key_name : Bytes) :
    Bytes :=
  P.hmacSHA256 base_key original_key_name

/-- Source `encrypt_value` (identical to the app variant). -/
def encrypt_value (P : CryptoPrims) (value key original_key_name iv : Bytes) : Bytes :=
  let value_key := derive_value_specific_key P key original_key_name
  b64encode stdAlphabet (iv ++ cbcEncrypt P value_key iv (pkcs7pad value))

/-- Source `decrypt_value` (identical to the app variant). -/
def decrypt_value (P : CryptoPrims) (encrypted_value key original_key_name : Bytes) :
    Option Bytes :=
  let value_key := derive_value_specific_key P key original_key_name
  let data := b64decode stdAlphabet encrypted_value
  pkcs7unpad (cbcDecrypt P value_key (data.take 16) (data.drop 16))

/-- One iteration of the write loop in the simple `obfuscate_env_file`. -/
def obfStep (P : CryptoPrims) (key : Bytes) (ivs : List Bytes)
    (st : List Bytes × List (Bytes × Bytes) × Nat) (line : Bytes) :
    List Bytes × List (Bytes × Bytes) × Nat :=
  if 61 ∈ line then
    let s := pyStrip line
    let key_name := (pySplitEq1 s).1
    let value := (pySplitEq1 s).2
    let obfuscated_key := tokenize key_name
    let encrypted_value := encrypt_value P value key key_name (ivs.getD st.2.2 [])
    (st.1 ++ [obfuscated_key ++ 61 :: encrypted_value ++ [10]],
     dictInsert obfuscated_key key_name st.2.1, st.2.2 + 1)
  else st

/-- Source `obfuscate_env_file` of the simple variant: no app key and no file
signature in the mapping artifact. -/
def obfuscate_env_file (P : CryptoPrims) (input_lines : List Bytes)
    (password salt : Bytes) (ivs : List Bytes) : List Bytes × MappingArtifact :=
  let key := generate_key P password salt
  let st := input_lines.foldl (obfStep P key ivs) ([], [], 0)
  (st.1, ⟨b64encode stdAlphabet salt, st.2.1, none⟩)

/-- The output-file content after only the first `k` input lines have been
processed by the simple variant's write loop. -/
def obfuscate_env_written (P : CryptoPrims) (input_lines : List Bytes)
    (password salt : Bytes) (ivs : List Bytes) (k : Nat) : List Bytes :=
  ((input_lines.take k).foldl
    (obfStep P (generate_key P password salt) ivs) ([], [], 0)).1

/-- The restore loop of the simple `deobfuscate_env_file`.  The mapping
lookup `obfuscation_mapping[obfuscated_key]` is outside the `try`, so a
missing token raises `KeyError` and aborts the whole run; only the decrypt
call is guarded. -/
def deobfuscateLines (P : CryptoPrims) (mapping : List (Bytes × Bytes)) (key : Bytes) :
    List Bytes → Except PyError (List Bytes × List Msg)
  | [] => Except.ok ([], [])
  | line :: rest =>
    if 61 ∈ line then
      match dictGet (pySplitEq1 (pyStrip line)).1 mapping with
      | none => Except.error (PyError.keyError (pySplitEq1 (pyStrip line)).1)
      | some original_key =>
        match decrypt_value P (pySplitEq1 (pyStrip line)).2 key original_key with
        | some v =>
          match deobfuscateLines P mapping key rest with
          | Except.ok st => Except.ok ((original_key ++ 61 :: v ++ [10]) :: st.1, st.2)
          | Except.error e => Except.error e
        | none =>
          match deobfuscateLines P mapping key rest with
          | Except.ok st =>
              Except.ok ((diagErrHead ++ original_key ++ diagErrTailSimple ++ [10]) :: st.1,
                Msg.decryptErr original_key :: st.2)
          | Except.error e => Except.error e
    else deobfuscateLines P mapping key rest

/-- Source `deobfuscate_env_file` of the simple variant. -/
def deobfuscate_env_file (P : CryptoPrims) (input_lines : List Bytes)
    (art : MappingArtifact) (password : Bytes) :
    Except PyError (List Bytes × List Msg) :=
  let salt := b64decode stdAlphabet art.saltB64
  let key := generate_key P password salt
  deobfuscateLines P art.mapping key input_lines

end SimpleEnv

namespace JsonCodec

/-- Source `src/scripts/obfuscator_json.py::generate_key`: Scrypt over the
password alone. -/
def generate_key (P : CryptoPrims) (password salt : Bytes) : Bytes :=
  P.scrypt password salt

/-- Source `encrypt_value`: AES-CBC directly under the given key. -/
def encrypt_value (P : CryptoPrims) (value key iv : Bytes) : Bytes :=
  b64encode stdAlphabet (iv ++ cbcEncrypt P key iv (pkcs7pad value))

/-- Source `decrypt_value`; `none` models the raised exception. -/
def decrypt_value (P : CryptoPrims) (encrypted_value key : Bytes) : Option Bytes :=
  let data := b64decode stdAlphabet encrypted_value
  pkcs7unpad (cbcDecrypt P key (data.take 16) (data.drop 16))

/-- One iteration of the record loop in `obfuscate_json`; the state is
(obfuscated_data, obfuscation_mapping, records seen so far). -/
def jsonObfStep (P : CryptoPrims) (key : Bytes) (ivs : List Bytes)
    (st : List (Bytes × Bytes) × List (Bytes × Bytes) × Nat) (kv : Bytes × Bytes) :
    List (Bytes × Bytes) × List (Bytes × Bytes) × Nat :=
  let obfuscated_key := tokenize kv.1
  let encrypted_value := encrypt_value P kv.2 key (ivs.getD st.2.2 [])
  (dictInsert obfuscated_key encrypted_value st.1,
   dictInsert obfuscated_key kv.1 st.2.1, st.2.2 + 1)

/-- Source `obfuscate_json`.  The input dict and both outputs are
insertion-ordered association lists; `ivs` supplies the fresh IV of each
`encrypt_value` call.  Returns (obfuscated data, key mapping). -/
def obfuscate_json (P : CryptoPrims) (input_data : List (Bytes × Bytes))
    (password salt : Bytes) (ivs : List Bytes) :
    List (Bytes × Bytes) × List (Bytes × Bytes) :=
  let key := generate_key P password salt
  let st := input_data.foldl (jsonObfStep P key ivs) ([], [], 0)
  (st.1, st.2.1)

/-- The record loop of `deobfuscate_json`: `mapping[obfuscated_key]` raises
`KeyError` on a missing token and `decrypt_value` raises on bad padding;
neither is caught, so either aborts the whole run. -/
def deobfuscateEntries (P : CryptoPrims) (mapping : List (Bytes × Bytes)) (key : Bytes) :
    List (Bytes × Bytes) → List (Bytes × Bytes) → Except PyError (List (Bytes × Bytes))
  | acc, [] => Except.ok acc
  | acc, kv :: rest =>
    match dictGet kv.1 mapping with
    | none => Except.error (PyError.keyError kv.1)
    | some original_key =>
      match decrypt_value P kv.2 key with
      | none => Except.error PyError.valueError
      | some v => deobfuscateEntries P mapping key (dictInsert original_key v acc) rest

/-- Source `deobfuscate_json`. -/
def deobfuscate_json (P : CryptoPrims) (input_data mapping : List (Bytes × Bytes))
    (password salt : Bytes) : Except PyError (List (Bytes × Bytes)) :=
  let key := generate_key P password salt
  deobfuscateEntries P mapping key [] input_data

end JsonCodec

/-- The obfuscated output line the app-key line codec writes for record `r`
when it is the `i`-th record of the run. -/
def obfRecordLine (P : CryptoPrims) (key : Bytes) (ivs : List Bytes) (i : Nat)
    (r : Bytes × Bytes) : Bytes :=
  tokenize r.1 ++ 61 :: AppEnv.encrypt_value P r.2 key r.1 (ivs.getD i []) ++ [10]

/-- The obfuscated output lines for a record list starting at record index `i`. -/
def obfLines (P : CryptoPrims) (key : Bytes) (ivs : List Bytes) :
    Nat → List (Bytes × Bytes) → List Bytes
  | _, [] => []
  | i, r :: rest => obfRecordLine P key ivs i r :: obfLines P key ivs (i + 1) rest

/-- The obfuscated JSON entries for a record list starting at record index `i`. -/
def jsonObfEntries (P : CryptoPrims) (key : Bytes) (ivs : List Bytes) :
    Nat → List (Bytes × Bytes) → List (Bytes × Bytes)
  | _, [] => []
  | i, r :: rest =>
      (tokenize r.1, JsonCodec.encrypt_value P r.2 key (ivs.getD i [])) ::
      jsonObfEntries P key ivs (i + 1) rest

/-- A concrete primitive bundle used to evaluate the development on explicit
inputs: an additive stream cipher standing in for the AES permutation, with
concatenation-based stand-ins for scrypt and HMAC.  It satisfies the three
`CryptoPrims` laws. -/
def toyPrims : CryptoPrims where
  scrypt := fun material salt => material ++ salt
  hmacSHA256 := fun k m => 1 :: (k ++ m)
  aesEnc := fun k b => b.map (fun x => (x + k.sum) % 256)
  aesDec := fun k b => b.map (fun x => (x + (256 - k.sum % 256)) % 256)
  aesDec_enc := by
    intro k b hb
    change (b.map (fun x => (x + k.sum) % 256)).map
      (fun x => (x + (256 - k.sum % 256)) % 256) = b
    rw [List.map_map]
    have h2 : b.map ((fun x => (x + (256 - k.sum % 256)) % 256) ∘
        (fun x => (x + k.sum) % 256)) = b.map id :=
      List.map_congr_left (fun x hx => by
        have := hb x hx
        simp only [Function.comp, id_eq]
        omega)
    rw [h2, List.map_id]
  aesEnc_len := by intro k b; simp
  aesEnc_lt := by
    intro k b x hx
    rw [List.mem_map] at hx
    obtain ⟨y, _, rfl⟩ := hx
    omega

/-- The per-record output lines the claim describes for the line codec: each
value encrypted under the sub-key `HMAC-SHA-256(master_key, original_name)`.
Stated explicitly to be compared with the pipeline output. -/
def obfLinesSubkeySpec (P : CryptoPrims) (key : Bytes) (ivs : List Bytes) :
    Nat → List (Bytes × Bytes) → List Bytes
  | _, [] => []
  | i, r :: rest =>
      (tokenize r.1 ++ 61 :: b64encode stdAlphabet (ivs.getD i [] ++
        cbcEncrypt P (P.hmacSHA256 key r.1) (ivs.getD i []) (pkcs7pad r.2)) ++ [10]) ::
      obfLinesSubkeySpec P key ivs (i + 1) rest

/-- The per-record entries the JSON codec actually produces: each value
encrypted directly under the master key, with no per-record sub-key. -/
def jsonEntriesMasterSpec (P : CryptoPrims) (key : Bytes) (ivs : List Bytes) :
    Nat → List (Bytes × Bytes) → List (Bytes × Bytes)
  | _, [] => []
  | i, r :: rest =>
      (tokenize r.1, b64encode stdAlphabet (ivs.getD i [] ++
        cbcEncrypt P key (ivs.getD i []) (pkcs7pad r.2))) ::
      jsonEntriesMasterSpec P key ivs (i + 1) rest

/-- Induction principle following the three-bytes-per-group recursion of the
base64 coders. -/
theorem threeStep {P : Bytes → Prop} (h0 : P []) (h1 : ∀ a, P [a])
    (h2 : ∀ a b, P [a, b])
    (h3 : ∀ a b c rest, P rest → P (a :: b :: c :: rest)) : ∀ bs, P bs
  | [] => h0
  | [a] => h1 a
  | [a, b] => h2 a b
  | a :: b :: c :: rest => h3 a b c rest (threeStep h0 h1 h2 h3 rest)

theorem stdAlphabet_good : GoodAlphabet stdAlphabet := by
  unfold GoodAlphabet; decide

theorem urlAlphabet_good : GoodAlphabet urlAlphabet := by
  unfold GoodAlphabet; decide

theorem beqFalseOfNe {a b : Nat} (h : a ≠ b) : ¬((a == b) = true) := by
  intro hc
  exact h (eq_of_beq hc)

theorem b64decode_encode {A : List Nat} (hA : GoodAlphabet A) :
    ∀ bs : Bytes, (∀ x ∈ bs, x < 256) → b64decode A (b64encode A bs) = bs := by
  apply threeStep
  · intro _; rfl
  · intro a h
    have ha : a < 256 := h a (by simp)
    have h1 := (hA (a / 4) (by omega)).1
    have h2 := (hA ((a % 4) * 16) (by omega)).1
    simp only [b64encode, b64decode]
    rw [if_pos (show ((61:Nat) == 61) = true by rfl), h1, h2]
    simp only [List.cons.injEq]
    exact ⟨by omega, trivial⟩
  · intro a b h
    have ha : a < 256 := h a (by simp)
    have hb : b < 256 := h b (by simp)
    have h1 := (hA (a / 4) (by omega)).1
    have h2 := (hA ((a % 4) * 16 + b / 16) (by omega)).1
    have h3 := hA ((b % 16) * 4) (by omega)
    simp only [b64encode, b64decode]
    rw [if_neg (beqFalseOfNe h3.2.1), if_pos (show ((61:Nat) == 61) = true by rfl), h1, h2, h3.1]
    simp only [List.cons.injEq]
    exact ⟨by omega, by omega, trivial⟩
  · intro a b c rest ih h
    have ha : a < 256 := h a (by simp)
    have hb : b < 256 := h b (by simp)
    have hc : c < 256 := h c (by simp)
    have h1 := (hA (a / 4) (by omega)).1
    have h2 := (hA ((a % 4) * 16 + b / 16) (by omega)).1
    have h3 := hA ((b % 16) * 4 + c / 64) (by omega)
    have h4 := hA (c % 64) (by omega)
    simp only [b64encode, b64decode]
    rw [if_neg (beqFalseOfNe h3.2.1), if_neg (beqFalseOfNe h4.2.1), h1, h2, h3.1, h4.1]
    simp only [List.cons.injEq]
    exact ⟨by omega, by omega, by omega, ih (fun x hx => h x (by simp [hx]))⟩

theorem b64decodeNoPad_encodeNoPad {A : List Nat} (hA : GoodAlphabet A) :
    ∀ bs : Bytes, (∀ x ∈ bs, x < 256) →
      b64decodeNoPad A (b64encodeNoPad A bs) = bs := by
  apply threeStep
  · intro _; rfl
  · intro a h
    have ha : a < 256 := h a (by simp)
    have h1 := (hA (a / 4) (by omega)).1
    have h2 := (hA ((a % 4) * 16) (by omega)).1
    simp only [b64encodeNoPad, b64decodeNoPad]
    rw [h1, h2]
    simp only [List.cons.injEq]
    exact ⟨by omega, trivial⟩
  · intro a b h
    have ha : a < 256 := h a (by simp)
    have hb : b < 256 := h b (by simp)
    have h1 := (hA (a / 4) (by omega)).1
    have h2 := (hA ((a % 4) * 16 + b / 16) (by omega)).1
    have h3 := (hA ((b % 16) * 4) (by omega)).1
    simp only [b64encodeNoPad, b64decodeNoPad]
    rw [h1, h2, h3]
    simp only [List.cons.injEq]
    exact ⟨by omega, by omega, trivial⟩
  · intro a b c rest ih h
    have ha : a < 256 := h a (by simp)
    have hb : b < 256 := h b (by simp)
    have hc : c < 256 := h c (by simp)
    have h1 := (hA (a / 4) (by omega)).1
    have h2 := (hA ((a % 4) * 16 + b / 16) (by omega)).1
    have h3 := (hA ((b % 16) * 4 + c / 64) (by omega)).1
    have h4 := (hA (c % 64) (by omega)).1
    simp only [b64encodeNoPad, b64decodeNoPad]
    rw [h1, h2, h3, h4]
    simp only [List.cons.injEq]
    exact ⟨by omega, by omega, by omega, ih (fun x hx => h x (by simp [hx]))⟩

theorem beqEqFalse {a b : Nat} (h : a ≠ b) : (a == b) = false := by
  cases hab : (a == b) with
  | false => rfl
  | true => exact absurd (eq_of_beq hab) h

theorem b64encodeNoPad_chars {A : List Nat} (hA : GoodAlphabet A) :
    ∀ bs : Bytes, (∀ x ∈ bs, x < 256) → ∀ c ∈ b64encodeNoPad A bs,
      c ≠ 61 ∧ isPySpace c = false ∧ c ≠ 10 ∧ c < 256 := by
  apply threeStep
  · intro _ c hc; simp [b64encodeNoPad] at hc
  · intro a h c hc
    have ha : a < 256 := h a (by simp)
    simp only [b64encodeNoPad, List.mem_cons, List.mem_singleton] at hc
    rcases hc with rfl | rfl | hc
    · exact (hA (a / 4) (by omega)).2
    · exact (hA ((a % 4) * 16) (by omega)).2
    · simp at hc
  · intro a b h c hc
    have ha : a < 256 := h a (by simp)
    have hb : b < 256 := h b (by simp)
    simp only [b64encodeNoPad, List.mem_cons, List.mem_singleton] at hc
    rcases hc with rfl | rfl | rfl | hc
    · exact (hA (a / 4) (by omega)).2
    · exact (hA ((a % 4) * 16 + b / 16) (by omega)).2
    · exact (hA ((b % 16) * 4) (by omega)).2
    · simp at hc
  · intro a b c rest ih h x hx
    have ha : a < 256 := h a (by simp)
    have hb : b < 256 := h b (by simp)
    have hc : c < 256 := h c (by simp)
    simp only [b64encodeNoPad, List.mem_cons] at hx
    rcases hx with rfl | rfl | rfl | rfl | hx
    · exact (hA (a / 4) (by omega)).2
    · exact (hA ((a % 4) * 16 + b / 16) (by omega)).2
    · exact (hA ((b % 16) * 4 + c / 64) (by omega)).2
    · exact (hA (c % 64) (by omega)).2
    · exact ih (fun y hy => h y (by simp [hy])) x hx

theorem b64encode_chars {A : List Nat} (hA : GoodAlphabet A) :
    ∀ bs : Bytes, (∀ x ∈ bs, x < 256) → ∀ c ∈ b64encode A bs,
      isPySpace c = false ∧ c ≠ 10 := by
  apply threeStep
  · intro _ c hc; simp [b64encode] at hc
  · intro a h c hc
    have ha : a < 256 := h a (by simp)
    simp only [b64encode, List.mem_cons, List.mem_singleton] at hc
    rcases hc with rfl | rfl | rfl | rfl | hc
    · exact ⟨(hA (a / 4) (by omega)).2.2.1, (hA (a / 4) (by omega)).2.2.2.1⟩
    · exact ⟨(hA ((a % 4) * 16) (by omega)).2.2.1, (hA ((a % 4) * 16) (by omega)).2.2.2.1⟩
    · exact ⟨rfl, by omega⟩
    · exact ⟨rfl, by omega⟩
    · simp at hc
  · intro a b h c hc
    have ha : a < 256 := h a (by simp)
    have hb : b < 256 := h b (by simp)
    simp only [b64encode, List.mem_cons, List.mem_singleton] at hc
    rcases hc with rfl | rfl | rfl | rfl | hc
    · exact ⟨(hA (a / 4) (by omega)).2.2.1, (hA (a / 4) (by omega)).2.2.2.1⟩
    · exact ⟨(hA ((a % 4) * 16 + b / 16) (by omega)).2.2.1,
        (hA ((a % 4) * 16 + b / 16) (by omega)).2.2.2.1⟩
    · exact ⟨(hA ((b % 16) * 4) (by omega)).2.2.1, (hA ((b % 16) * 4) (by omega)).2.2.2.1⟩
    · exact ⟨rfl, by omega⟩
    · simp at hc
  · intro a b c rest ih h x hx
    have ha : a < 256 := h a (by simp)
    have hb : b < 256 := h b (by simp)
    have hc : c < 256 := h c (by simp)
    simp only [b64encode, List.mem_cons] at hx
    rcases hx with rfl | rfl | rfl | rfl | hx
    · exact ⟨(hA (a / 4) (by omega)).2.2.1, (hA (a / 4) (by omega)).2.2.2.1⟩
    · exact ⟨(hA ((a % 4) * 16 + b / 16) (by omega)).2.2.1,
        (hA ((a % 4) * 16 + b / 16) (by omega)).2.2.2.1⟩
    · exact ⟨(hA ((b % 16) * 4 + c / 64) (by omega)).2.2.1,
        (hA ((b % 16) * 4 + c / 64) (by omega)).2.2.2.1⟩
    · exact ⟨(hA (c % 64) (by omega)).2.2.1, (hA (c % 64) (by omega)).2.2.2.1⟩
    · exact ih (fun y hy => h y (by simp [hy])) x hx

theorem stripEqChar_eq_dropTailEq (bs : Bytes) :
    stripEqChar bs = dropTailEq (bs.dropWhile (· == 61)) := rfl

theorem dropTailEq_append (xs ys : Bytes) (h : dropTailEq ys ≠ []) :
    dropTailEq (xs ++ ys) = xs ++ dropTailEq ys := by
  unfold dropTailEq at h ⊢
  rw [List.reverse_append, List.dropWhile_append]
  have h2 : (ys.reverse.dropWhile (· == 61)).isEmpty = false := by
    cases hE : ys.reverse.dropWhile (· == 61) with
    | nil => exact absurd (by simp [hE]) h
    | cons u v => rfl
  simp only [h2, Bool.false_eq_true, if_false, List.reverse_append, List.reverse_reverse]

theorem b64encodeNoPad_ne_nil (A : List Nat) (bs : Bytes) (h : bs ≠ []) :
    b64encodeNoPad A bs ≠ [] := by
  match bs with
  | [] => exact absurd rfl h
  | [a] => simp [b64encodeNoPad]
  | [a, b] => simp [b64encodeNoPad]
  | a :: b :: c :: rest => simp [b64encodeNoPad]

theorem b64encode_head (A : List Nat) (a : Nat) (t : Bytes) :
    ∃ u, b64encode A (a :: t) = A.getD (a / 4) 0 :: u := by
  match t with
  | [] => exact ⟨_, rfl⟩
  | [b] => exact ⟨_, rfl⟩
  | b :: c :: rest => exact ⟨_, rfl⟩

theorem stripEqChar_b64encode {A : List Nat} (hA : GoodAlphabet A) :
    ∀ bs : Bytes, (∀ x ∈ bs, x < 256) →
      stripEqChar (b64encode A bs) = b64encodeNoPad A bs := by
  have hfront : ∀ bs : Bytes, (∀ x ∈ bs, x < 256) →
      (b64encode A bs).dropWhile (· == 61) = b64encode A bs := by
    intro bs hb
    match bs with
    | [] => rfl
    | a :: t =>
      obtain ⟨u, hu⟩ := b64encode_head A a t
      have ha : a < 256 := hb a (by simp)
      have hne := (hA (a / 4) (by omega)).2.1
      rw [hu, List.dropWhile_cons, beqEqFalse hne]
      simp
  apply threeStep
  · intro _; rfl
  · intro a h
    have ha : a < 256 := h a (by simp)
    have h1 := beqEqFalse (hA (a / 4) (by omega)).2.1
    have h2 := beqEqFalse (hA ((a % 4) * 16) (by omega)).2.1
    simp only [b64encode, b64encodeNoPad, stripEqChar_eq_dropTailEq, dropTailEq,
      h1, h2, List.reverse_cons, List.reverse_nil, List.nil_append, List.cons_append,
      List.dropWhile_cons, beq_self_eq_true, eq_self_iff_true, if_true,
      Bool.false_eq_true, if_false, List.append_nil]
  · intro a b h
    have ha : a < 256 := h a (by simp)
    have hb : b < 256 := h b (by simp)
    have h1 := beqEqFalse (hA (a / 4) (by omega)).2.1
    have h2 := beqEqFalse (hA ((a % 4) * 16 + b / 16) (by omega)).2.1
    have h3 := beqEqFalse (hA ((b % 16) * 4) (by omega)).2.1
    simp only [b64encode, b64encodeNoPad, stripEqChar_eq_dropTailEq, dropTailEq,
      h1, h2, h3, List.reverse_cons, List.reverse_nil, List.nil_append, List.cons_append,
      List.dropWhile_cons, beq_self_eq_true, eq_self_iff_true, if_true,
      Bool.false_eq_true, if_false, List.append_nil]
  · intro a b c rest ih h
    have ha : a < 256 := h a (by simp)
    have hb : b < 256 := h b (by simp)
    have hc : c < 256 := h c (by simp)
    have hrest : ∀ x ∈ rest, x < 256 := fun y hy => h y (by simp [hy])
    have h1 := beqEqFalse (hA (a / 4) (by omega)).2.1
    have h2 := beqEqFalse (hA ((a % 4) * 16 + b / 16) (by omega)).2.1
    have h3 := beqEqFalse (hA ((b % 16) * 4 + c / 64) (by omega)).2.1
    have h4 := beqEqFalse (hA (c % 64) (by omega)).2.1
    rw [stripEqChar_eq_dropTailEq]
    rw [show b64encode A (a :: b :: c :: rest) =
      [A.getD (a / 4) 0, A.getD ((a % 4) * 16 + b / 16) 0,
       A.getD ((b % 16) * 4 + c / 64) 0, A.getD (c % 64) 0] ++ b64encode A rest from rfl]
    rw [List.dropWhile_append]
    have hfrontFour : ([A.getD (a / 4) 0, A.getD ((a % 4) * 16 + b / 16) 0,
        A.getD ((b % 16) * 4 + c / 64) 0, A.getD (c % 64) 0].dropWhile (· == 61)) =
        [A.getD (a / 4) 0, A.getD ((a % 4) * 16 + b / 16) 0,
         A.getD ((b % 16) * 4 + c / 64) 0, A.getD (c % 64) 0] := by
      simp only [List.dropWhile_cons, h1, Bool.false_eq_true, if_false]
    rw [hfrontFour]
    simp only [List.isEmpty_cons, Bool.false_eq_true, if_false]
    cases hrw : rest with
    | nil =>
      simp only [b64encode, b64encodeNoPad, dropTailEq,
      h1, h2, h3, h4, List.reverse_cons, List.reverse_nil, List.nil_append, List.cons_append,
      List.dropWhile_cons, beq_self_eq_true, eq_self_iff_true, if_true,
      Bool.false_eq_true, if_false, List.append_nil]
    | cons r t =>
      rw [← hrw]
      have hrne : rest ≠ [] := by rw [hrw]; simp
      have ihe : stripEqChar (b64encode A rest) = b64encodeNoPad A rest := ih hrest
      have hfr := hfront rest hrest
      rw [stripEqChar_eq_dropTailEq, hfr] at ihe
      have hdne : dropTailEq (b64encode A rest) ≠ [] := by
        rw [ihe]; exact b64encodeNoPad_ne_nil A rest hrne
      rw [dropTailEq_append _ _ hdne, ihe]
      rw [show b64encodeNoPad A (a :: b :: c :: rest) =
        [A.getD (a / 4) 0, A.getD ((a % 4) * 16 + b / 16) 0,
         A.getD ((b % 16) * 4 + c / 64) 0, A.getD (c % 64) 0] ++ b64encodeNoPad A rest from rfl]

theorem pkcs7pad_getLastD (v : Bytes) :
    (pkcs7pad v).getLastD 0 = 16 - v.length % 16 := by
  unfold pkcs7pad
  have hn : 16 - v.length % 16 = (16 - v.length % 16 - 1) + 1 := by omega
  rw [hn, List.replicate_succ']
  rw [← List.append_assoc]
  simp

theorem pkcs7unpad_pad (v : Bytes) : pkcs7unpad (pkcs7pad v) = some v := by
  have hlen : (pkcs7pad v).length = v.length + (16 - v.length % 16) := by
    unfold pkcs7pad; simp
  have hlast := pkcs7pad_getLastD v
  have hmod : (pkcs7pad v).length % 16 = 0 := by rw [hlen]; omega
  have hne : pkcs7pad v ≠ [] := by
    intro hc; rw [hc] at hlen; simp at hlen; omega
  have hdrop : (pkcs7pad v).length - (pkcs7pad v).getLastD 0 = v.length := by
    rw [hlast, hlen]; omega
  have hall : ((pkcs7pad v).drop ((pkcs7pad v).length - (pkcs7pad v).getLastD 0)).all
      (· == (pkcs7pad v).getLastD 0) = true := by
    rw [hdrop, hlast]
    show ((v ++ List.replicate (16 - v.length % 16) (16 - v.length % 16)).drop
      v.length).all (· == 16 - v.length % 16) = true
    rw [List.drop_left]
    simp [List.all_eq_true, List.mem_replicate]
  unfold pkcs7unpad
  rw [if_pos ⟨hmod, hne⟩,
    if_pos ⟨by rw [hlast]; omega, by rw [hlast]; omega, hall⟩, hdrop]
  show some ((v ++ List.replicate (16 - v.length % 16) (16 - v.length % 16)).take
    v.length) = some v
  rw [List.take_left]

theorem pkcs7pad_mod (v : Bytes) : (pkcs7pad v).length % 16 = 0 := by
  unfold pkcs7pad; simp; omega

theorem pkcs7pad_lt (v : Bytes) (hv : ∀ x ∈ v, x < 256) :
    ∀ x ∈ pkcs7pad v, x < 256 := by
  intro x hx
  unfold pkcs7pad at hx
  rcases List.mem_append.mp hx with h | h
  · exact hv x h
  · have := (List.mem_replicate.mp h).2
    omega

theorem xorBytes_length (a b : Bytes) : (xorBytes a b).length = min a.length b.length := by
  simp [xorBytes]

theorem xorBytes_lt : ∀ (a b : Bytes), (∀ x ∈ a, x < 256) → (∀ x ∈ b, x < 256) →
    ∀ x ∈ xorBytes a b, x < 256 := by
  intro a
  induction a with
  | nil => intro b _ _ x hx; simp [xorBytes] at hx
  | cons u t ih =>
    intro b ha hb x hx
    cases b with
    | nil => simp [xorBytes] at hx
    | cons w s =>
      simp only [xorBytes, List.zipWith_cons_cons, List.mem_cons] at hx
      rcases hx with rfl | hx
      · have h1 : u < 2 ^ 8 := by have := ha u (by simp); omega
        have h2 : w < 2 ^ 8 := by have := hb w (by simp); omega
        have := Nat.xor_lt_two_pow h1 h2
        omega
      · exact ih s (fun y hy => ha y (by simp [hy])) (fun y hy => hb y (by simp [hy])) x hx

theorem xorBytes_cancel : ∀ (a b : Bytes), a.length ≤ b.length →
    xorBytes (xorBytes a b) b = a := by
  intro a
  induction a with
  | nil => intro b _; simp [xorBytes]
  | cons u t ih =>
    intro b hlen
    cases b with
    | nil => simp at hlen
    | cons w s =>
      simp only [xorBytes, List.zipWith_cons_cons, List.cons.injEq] at ih ⊢
      refine ⟨Nat.xor_cancel_right w u, ih s (by simpa using hlen)⟩

theorem chunk16Go_flatten : ∀ (fuel : Nat) (bs : Bytes), bs.length ≤ fuel →
    (chunk16Go fuel bs).flatten = bs := by
  intro fuel
  induction fuel with
  | zero =>
    intro bs h
    cases bs with
    | nil => rfl
    | cons b t => simp at h
  | succ fuel ih =>
    intro bs h
    cases bs with
    | nil => rfl
    | cons b t =>
      rw [show chunk16Go (fuel + 1) (b :: t) =
        (b :: t).take 16 :: chunk16Go fuel ((b :: t).drop 16) from rfl]
      rw [List.flatten_cons, ih ((b :: t).drop 16)
        (by simp only [List.length_drop]; simp at h ⊢; omega)]
      exact List.take_append_drop 16 (b :: t)

theorem flatten_chunk16 : ∀ bs : Bytes, (chunk16 bs).flatten = bs := by
  intro bs
  exact chunk16Go_flatten bs.length bs (le_refl _)

theorem chunk16Go_succ_cons (fuel : Nat) (bs : Bytes) (h : bs ≠ []) :
    chunk16Go (fuel + 1) bs = bs.take 16 :: chunk16Go fuel (bs.drop 16) := by
  cases bs with
  | nil => exact absurd rfl h
  | cons x t => rfl

theorem chunk16Go_of_blocks : ∀ (blocks : List Bytes) (fuel : Nat),
    (∀ b ∈ blocks, b.length = 16) → blocks.flatten.length ≤ fuel →
    chunk16Go fuel blocks.flatten = blocks := by
  intro blocks
  induction blocks with
  | nil => intro fuel _ _; cases fuel <;> rfl
  | cons b rest ih =>
    intro fuel hlen hfuel
    have hb : b.length = 16 := hlen b (by simp)
    have hflat : (b :: rest).flatten.length = 16 + rest.flatten.length := by
      simp [hb]
    cases fuel with
    | zero => rw [hflat] at hfuel; omega
    | succ fuel =>
      have hne : (b :: rest).flatten = b ++ rest.flatten := rfl
      have hbne : b ++ rest.flatten ≠ [] := by
        intro hc
        rw [List.append_eq_nil] at hc
        rw [hc.1] at hb
        simp at hb
      rw [hne, chunk16Go_succ_cons fuel (b ++ rest.flatten) hbne]
      rw [show (16 : Nat) = b.length from hb.symm, List.take_left, List.drop_left]
      rw [ih fuel (fun y hy => hlen y (by simp [hy]))
        (by rw [hne, List.length_append, hb] at hfuel; omega)]

theorem chunk16_flatten : ∀ blocks : List Bytes, (∀ b ∈ blocks, b.length = 16) →
    chunk16 blocks.flatten = blocks := by
  intro blocks h
  exact chunk16Go_of_blocks blocks blocks.flatten.length h (le_refl _)

theorem chunk16Go_blocks : ∀ (fuel : Nat) (bs : Bytes), bs.length ≤ fuel →
    bs.length % 16 = 0 → ∀ b ∈ chunk16Go fuel bs, b.length = 16 := by
  intro fuel
  induction fuel with
  | zero =>
    intro bs h _ b hb
    cases bs with
    | nil => simp [chunk16Go] at hb
    | cons x t => simp at h
  | succ fuel ih =>
    intro bs h hmod b hb
    cases bs with
    | nil => simp [chunk16Go] at hb
    | cons x t =>
      rw [show chunk16Go (fuel + 1) (x :: t) =
        (x :: t).take 16 :: chunk16Go fuel ((x :: t).drop 16) from rfl] at hb
      rcases List.mem_cons.mp hb with h1 | h2
      · subst h1
        simp only [List.length_take, List.length_cons]
        have : (x :: t).length ≠ 0 := by simp
        simp only [List.length_cons] at this hmod
        omega
      · refine ih ((x :: t).drop 16) ?_ ?_ b h2
        · simp only [List.length_drop, List.length_cons] at h ⊢; omega
        · simp only [List.length_drop, List.length_cons] at hmod ⊢; omega

theorem chunk16_blocks : ∀ bs : Bytes, bs.length % 16 = 0 →
    ∀ b ∈ chunk16 bs, b.length = 16 := by
  intro bs h
  exact chunk16Go_blocks bs.length bs (le_refl _) h

theorem chunk16Go_mem_sub : ∀ (fuel : Nat) (bs : Bytes),
    ∀ b ∈ chunk16Go fuel bs, ∀ x ∈ b, x ∈ bs := by
  intro fuel
  induction fuel with
  | zero =>
    intro bs b hb x hx
    cases bs with
    | nil => simp [chunk16Go] at hb
    | cons y t =>
      have : b = y :: t := by simpa [chunk16Go] using hb
      rw [this] at hx
      exact hx
  | succ fuel ih =>
    intro bs b hb x hx
    cases bs with
    | nil => simp [chunk16Go] at hb
    | cons y t =>
      rw [show chunk16Go (fuel + 1) (y :: t) =
        (y :: t).take 16 :: chunk16Go fuel ((y :: t).drop 16) from rfl] at hb
      rcases List.mem_cons.mp hb with h1 | h2
      · subst h1; exact List.take_subset 16 (y :: t) hx
      · exact List.drop_subset 16 (y :: t) (ih ((y :: t).drop 16) b h2 x hx)

theorem chunk16_mem_sub : ∀ bs : Bytes, ∀ b ∈ chunk16 bs, ∀ x ∈ b, x ∈ bs := by
  intro bs
  exact chunk16Go_mem_sub bs.length bs

theorem cbcEncBlocks_len (P : CryptoPrims) (key : Bytes) :
    ∀ (blocks : List Bytes) (prev : Bytes), (∀ b ∈ blocks, b.length = 16) →
      prev.length = 16 → ∀ cb ∈ cbcEncBlocks (P.aesEnc key) prev blocks, cb.length = 16 := by
  intro blocks
  induction blocks with
  | nil => intro prev _ _ cb hcb; simp [cbcEncBlocks] at hcb
  | cons b rest ih =>
    intro prev hb hprev cb hcb
    have hblen : b.length = 16 := hb b (by simp)
    have hclen : (P.aesEnc key (xorBytes b prev)).length = 16 := by
      rw [P.aesEnc_len, xorBytes_length, hblen, hprev]; simp
    simp only [cbcEncBlocks, List.mem_cons] at hcb
    rcases hcb with rfl | hcb
    · exact hclen
    · exact ih _ (fun y hy => hb y (by simp [hy])) hclen cb hcb

theorem cbcEncBlocks_lt (P : CryptoPrims) (key : Bytes) :
    ∀ (blocks : List Bytes) (prev : Bytes),
      ∀ cb ∈ cbcEncBlocks (P.aesEnc key) prev blocks, ∀ x ∈ cb, x < 256 := by
  intro blocks
  induction blocks with
  | nil => intro prev cb hcb; simp [cbcEncBlocks] at hcb
  | cons b rest ih =>
    intro prev cb hcb
    simp only [cbcEncBlocks, List.mem_cons] at hcb
    rcases hcb with rfl | hcb
    · exact P.aesEnc_lt key _
    · exact ih _ cb hcb

theorem cbcDecBlocks_encBlocks (P : CryptoPrims) (key : Bytes) :
    ∀ (blocks : List Bytes) (prev : Bytes),
      (∀ b ∈ blocks, b.length = 16 ∧ ∀ x ∈ b, x < 256) →
      prev.length = 16 → (∀ x ∈ prev, x < 256) →
      cbcDecBlocks (P.aesDec key) prev (cbcEncBlocks (P.aesEnc key) prev blocks) = blocks := by
  intro blocks
  induction blocks with
  | nil => intro prev _ _ _; rfl
  | cons b rest ih =>
    intro prev hb hprevlen hprevlt
    have hblen : b.length = 16 := (hb b (by simp)).1
    have hblt : ∀ x ∈ b, x < 256 := (hb b (by simp)).2
    have hxlt : ∀ x ∈ xorBytes b prev, x < 256 := xorBytes_lt b prev hblt hprevlt
    simp only [cbcEncBlocks, cbcDecBlocks, List.cons.injEq]
    constructor
    · rw [P.aesDec_enc key _ hxlt]
      exact xorBytes_cancel b prev (by omega)
    · exact ih _ (fun y hy => hb y (by simp [hy]))
        (by rw [P.aesEnc_len, xorBytes_length, hblen, hprevlen]; simp)
        (P.aesEnc_lt key _)

theorem tokenize_eq_noPad (key_name : Bytes) (h : ∀ x ∈ key_name, x < 256) :
    tokenize key_name = b64encodeNoPad urlAlphabet key_name :=
  stripEqChar_b64encode urlAlphabet_good key_name h

theorem tokenize_inj {n1 n2 : Bytes} (h1 : ∀ x ∈ n1, x < 256) (h2 : ∀ x ∈ n2, x < 256)
    (he : tokenize n1 = tokenize n2) : n1 = n2 := by
  rw [tokenize_eq_noPad n1 h1, tokenize_eq_noPad n2 h2] at he
  have e1 := b64decodeNoPad_encodeNoPad urlAlphabet_good n1 h1
  have e2 := b64decodeNoPad_encodeNoPad urlAlphabet_good n2 h2
  rw [← e1, ← e2, he]

theorem tokenize_chars (key_name : Bytes) (h : ∀ x ∈ key_name, x < 256) :
    ∀ c ∈ tokenize key_name, c ≠ 61 ∧ isPySpace c = false ∧ c ≠ 10 ∧ c < 256 := by
  rw [tokenize_eq_noPad key_name h]
  exact b64encodeNoPad_chars urlAlphabet_good key_name h

theorem tokenize_ne_nil (key_name : Bytes) (hne : key_name ≠ [])
    (h : ∀ x ∈ key_name, x < 256) : tokenize key_name ≠ [] := by
  rw [tokenize_eq_noPad key_name h]
  exact b64encodeNoPad_ne_nil urlAlphabet key_name hne

theorem tokenize_not_mem_61 (key_name : Bytes) (h : ∀ x ∈ key_name, x < 256) :
    61 ∉ tokenize key_name := by
  intro hc
  exact (tokenize_chars key_name h 61 hc).1 rfl

theorem b64encode_ne_nil (A : List Nat) (bs : Bytes) (h : bs ≠ []) :
    b64encode A bs ≠ [] := by
  match bs with
  | [] => exact absurd rfl h
  | [a] => simp [b64encode]
  | [a, b] => simp [b64encode]
  | a :: b :: c :: rest => simp [b64encode]

theorem headD_append_of_ne_nil (xs ys : Bytes) (h : xs ≠ []) :
    (xs ++ ys).headD 0 = xs.headD 0 := by
  cases xs with
  | nil => exact absurd rfl h
  | cons a t => rfl

theorem getLastD_append_of_ne_nil (xs ys : Bytes) (h : ys ≠ []) :
    (xs ++ ys).getLastD 0 = ys.getLastD 0 := by
  rw [List.getLastD_eq_getLast?, List.getLastD_eq_getLast?,
    List.getLast?_append_of_ne_nil xs h]

theorem pyStrip_newline (bs : Bytes) (hne : bs ≠ [])
    (hhead : isPySpace (bs.headD 0) = false)
    (hlast : isPySpace (bs.getLastD 0) = false) :
    pyStrip (bs ++ [10]) = bs := by
  have hfront : (bs ++ [10]).dropWhile isPySpace = bs ++ [10] := by
    cases bs with
    | nil => exact absurd rfl hne
    | cons h t =>
      rw [List.cons_append, List.dropWhile_cons]
      have hh : isPySpace h = false := hhead
      simp only [hh, Bool.false_eq_true, if_false]
  unfold pyStrip
  rw [hfront, List.reverse_append]
  have hstep : (List.reverse [10] ++ bs.reverse).dropWhile isPySpace =
      bs.reverse.dropWhile isPySpace := rfl
  rw [hstep]
  cases hR : bs.reverse with
  | nil =>
    exact absurd (by simpa using congrArg List.reverse hR) hne
  | cons x r =>
    have hx : x = bs.getLastD 0 := by
      have h1 : bs.reverse.head? = bs.getLast? := List.head?_reverse bs
      rw [hR] at h1
      rw [List.getLastD_eq_getLast?, ← h1]
      rfl
    rw [List.dropWhile_cons]
    rw [hx]
    simp only [hlast, Bool.false_eq_true, if_false]
    rw [← hx, ← hR, List.reverse_reverse]

theorem takeWhile61 : ∀ (tok rest : Bytes), 61 ∉ tok →
    (tok ++ 61 :: rest).takeWhile (· != 61) = tok := by
  intro tok
  induction tok with
  | nil => intro rest _; rfl
  | cons h t ih =>
    intro rest hmem
    have hh : (h != 61) = true := bne_iff_ne.mpr (fun hc => hmem (by simp [hc]))
    rw [List.cons_append, List.takeWhile_cons]
    simp only [hh, eq_self_iff_true, if_true]
    rw [ih rest (fun hc => hmem (by simp [hc]))]

theorem dropWhile61 : ∀ (tok rest : Bytes), 61 ∉ tok →
    (tok ++ 61 :: rest).dropWhile (· != 61) = 61 :: rest := by
  intro tok
  induction tok with
  | nil => intro rest _; rfl
  | cons h t ih =>
    intro rest hmem
    have hh : (h != 61) = true := bne_iff_ne.mpr (fun hc => hmem (by simp [hc]))
    rw [List.cons_append, List.dropWhile_cons]
    simp only [hh, eq_self_iff_true, if_true]
    exact ih rest (fun hc => hmem (by simp [hc]))

theorem pySplitEq1_append (tok rest : Bytes) (h : 61 ∉ tok) :
    pySplitEq1 (tok ++ 61 :: rest) = (tok, rest) := by
  unfold pySplitEq1
  rw [takeWhile61 tok rest h, dropWhile61 tok rest h]
  rfl

theorem dictInsert_fresh (k v : Bytes) (d : List (Bytes × Bytes))
    (h : ∀ p ∈ d, p.1 ≠ k) : dictInsert k v d = d ++ [(k, v)] := by
  unfold dictInsert
  rw [if_neg]
  intro hc
  rw [List.any_eq_true] at hc
  obtain ⟨p, hp, hpk⟩ := hc
  exact h p hp (eq_of_beq hpk)

theorem dictGet_cons_ne (k : Bytes) (p : Bytes × Bytes) (d : List (Bytes × Bytes))
    (h : p.1 ≠ k) : dictGet k (p :: d) = dictGet k d := by
  unfold dictGet
  rw [List.find?_cons_of_neg]
  simp [h]

theorem dictGet_cons_self (k v : Bytes) (d : List (Bytes × Bytes)) :
    dictGet k ((k, v) :: d) = some v := by
  unfold dictGet
  rw [List.find?_cons_of_pos]
  · rfl
  · simp

theorem dictGet_tokens : ∀ (recs : List (Bytes × Bytes)) (r : Bytes × Bytes),
    r ∈ recs →
    List.Pairwise (fun a b => tokenize a.1 ≠ tokenize b.1) recs →
    dictGet (tokenize r.1) (recs.map (fun x => (tokenize x.1, x.1))) = some r.1 := by
  intro recs
  induction recs with
  | nil => intro r hr _; simp at hr
  | cons a rest ih =>
    intro r hr hpw
    rcases List.mem_cons.mp hr with rfl | hr2
    · rw [List.map_cons, dictGet_cons_self]
    · rw [List.map_cons, dictGet_cons_ne]
      · exact ih r hr2 (List.Pairwise.sublist (List.sublist_cons_self a rest) hpw)
      · exact (List.pairwise_cons.mp hpw).1 r hr2

theorem cbcEncrypt_lt (P : CryptoPrims) (key iv data : Bytes) :
    ∀ x ∈ cbcEncrypt P key iv data, x < 256 := by
  intro x hx
  unfold cbcEncrypt at hx
  obtain ⟨cb, hcb, hxcb⟩ := List.mem_flatten.mp hx
  exact cbcEncBlocks_lt P key (chunk16 data) iv cb hcb x hxcb

theorem valueCipher_roundtrip (P : CryptoPrims) (vk iv v : Bytes)
    (hivlen : iv.length = 16) (hivlt : ∀ x ∈ iv, x < 256)
    (hv : ∀ x ∈ v, x < 256) :
    pkcs7unpad (cbcDecrypt P vk
      ((b64decode stdAlphabet
        (b64encode stdAlphabet (iv ++ cbcEncrypt P vk iv (pkcs7pad v)))).take 16)
      ((b64decode stdAlphabet
        (b64encode stdAlphabet (iv ++ cbcEncrypt P vk iv (pkcs7pad v)))).drop 16)) =
    some v := by
  have hpadlt := pkcs7pad_lt v hv
  have hpadmod := pkcs7pad_mod v
  have hblocks : ∀ b ∈ chunk16 (pkcs7pad v), b.length = 16 :=
    chunk16_blocks (pkcs7pad v) hpadmod
  have hblockslt : ∀ b ∈ chunk16 (pkcs7pad v), ∀ x ∈ b, x < 256 :=
    fun b hb x hx => hpadlt x (chunk16_mem_sub (pkcs7pad v) b hb x hx)
  have hctlen : ∀ cb ∈ cbcEncBlocks (P.aesEnc vk) iv (chunk16 (pkcs7pad v)),
      cb.length = 16 := cbcEncBlocks_len P vk _ iv hblocks hivlen
  have hall : ∀ x ∈ iv ++ cbcEncrypt P vk iv (pkcs7pad v), x < 256 := by
    intro x hx
    rcases List.mem_append.mp hx with h | h
    · exact hivlt x h
    · exact cbcEncrypt_lt P vk iv (pkcs7pad v) x h
  rw [b64decode_encode stdAlphabet_good _ hall]
  rw [show (16 : Nat) = iv.length from hivlen.symm, List.take_left, List.drop_left]
  unfold cbcDecrypt cbcEncrypt
  rw [chunk16_flatten _ hctlen]
  rw [cbcDecBlocks_encBlocks P vk _ iv
    (fun b hb => ⟨hblocks b hb, hblockslt b hb⟩) hivlen hivlt]
  rw [flatten_chunk16]
  exact pkcs7unpad_pad v

theorem appEnv_decrypt_encrypt (P : CryptoPrims) (value key original_key_name iv : Bytes)
    (hivlen : iv.length = 16) (hivlt : ∀ x ∈ iv, x < 256)
    (hv : ∀ x ∈ value, x < 256) :
    AppEnv.decrypt_value P (AppEnv.encrypt_value P value key original_key_name iv)
      key original_key_name = some value := by
  unfold AppEnv.decrypt_value AppEnv.encrypt_value
  exact valueCipher_roundtrip P _ iv value hivlen hivlt hv

theorem jsonCodec_decrypt_encrypt (P : CryptoPrims) (value key iv : Bytes)
    (hivlen : iv.length = 16) (hivlt : ∀ x ∈ iv, x < 256)
    (hv : ∀ x ∈ value, x < 256) :
    JsonCodec.decrypt_value P (JsonCodec.encrypt_value P value key iv) key = some value := by
  unfold JsonCodec.decrypt_value JsonCodec.encrypt_value
  exact valueCipher_roundtrip P key iv value hivlen hivlt hv

theorem appEnv_encrypt_value_chars (P : CryptoPrims) (value key original_key_name iv : Bytes)
    (hivlt : ∀ x ∈ iv, x < 256) :
    ∀ c ∈ AppEnv.encrypt_value P value key original_key_name iv,
      isPySpace c = false ∧ c ≠ 10 := by
  unfold AppEnv.encrypt_value
  apply b64encode_chars stdAlphabet_good
  intro x hx
  rcases List.mem_append.mp hx with h | h
  · exact hivlt x h
  · exact cbcEncrypt_lt P _ iv _ x h

theorem appEnv_encrypt_value_ne_nil (P : CryptoPrims)
    (value key original_key_name iv : Bytes) (hiv : iv ≠ []) :
    AppEnv.encrypt_value P value key original_key_name iv ≠ [] := by
  unfold AppEnv.encrypt_value
  apply b64encode_ne_nil
  intro hc
  rw [List.append_eq_nil] at hc
  exact hiv hc.1

theorem headD_mem (l : Bytes) (h : l ≠ []) : l.headD 0 ∈ l := by
  cases l with
  | nil => exact absurd rfl h
  | cons a t => simp

theorem getLastD_mem : ∀ (l : Bytes), l ≠ [] → l.getLastD 0 ∈ l := by
  intro l
  induction l with
  | nil => intro h; exact absurd rfl h
  | cons a t ih =>
    intro _
    cases t with
    | nil => simp [List.getLastD]
    | cons b s =>
      have hstep : (a :: b :: s).getLastD 0 = (b :: s).getLastD 0 := rfl
      rw [hstep]
      exact List.mem_cons_of_mem a (ih (by simp))

theorem flatten_singletons {α β : Type} : ∀ (l : List α) (f : α → List β),
    (l.map (fun x => [f x])).flatten = l.map f := by
  intro l f
  induction l with
  | nil => rfl
  | cons a t ih => simp [ih]

theorem flatten_nils {α β : Type} : ∀ (l : List α),
    ((l.map (fun _ => ([] : List β)))).flatten = [] := by
  intro l
  induction l with
  | nil => rfl
  | cons a t ih => simp [ih]

theorem serialize_line_strip (r : Bytes × Bytes) (hr : WfRecord r) :
    pyStrip (r.1 ++ 61 :: r.2 ++ [10]) = r.1 ++ 61 :: r.2 := by
  obtain ⟨hne, h61, h128a, h128b, h10a, h13a, h10b, h13b, hhead, hlastv⟩ := hr
  have hassoc : r.1 ++ 61 :: r.2 ++ [10] = (r.1 ++ 61 :: r.2) ++ ([10] : Bytes) := by
    simp
  rw [hassoc]
  apply pyStrip_newline
  · intro hc
    rw [List.append_eq_nil] at hc
    exact hne hc.1
  · rw [headD_append_of_ne_nil r.1 _ hne]
    exact hhead
  · rw [getLastD_append_of_ne_nil r.1 _ (by simp)]
    cases hv : r.2 with
    | nil => rfl
    | cons b t =>
      rw [show (61 :: b :: t : Bytes) = [61] ++ (b :: t) from rfl,
        getLastD_append_of_ne_nil [61] _ (by simp)]
      have hlx := hlastv (by rw [hv]; simp)
      rw [hv] at hlx
      exact hlx

theorem obfStep_record (P : CryptoPrims) (key : Bytes) (ivs : List Bytes)
    (st : List Bytes × List (Bytes × Bytes) × Nat) (r : Bytes × Bytes)
    (hr : WfRecord r) :
    AppEnv.obfStep P key ivs st (r.1 ++ 61 :: r.2 ++ [10]) =
      (st.1 ++ [obfRecordLine P key ivs st.2.2 r],
       dictInsert (tokenize r.1) r.1 st.2.1, st.2.2 + 1) := by
  have hmem : 61 ∈ r.1 ++ 61 :: r.2 ++ [10] := by simp
  have hstrip := serialize_line_strip r hr
  have hsplit := pySplitEq1_append r.1 r.2 hr.2.1
  unfold AppEnv.obfStep
  rw [if_pos hmem]
  simp only [hstrip, hsplit, obfRecordLine]

theorem obfFold_serialized (P : CryptoPrims) (key : Bytes) (ivs : List Bytes) :
    ∀ (recs : List (Bytes × Bytes)) (o0 : List Bytes)
      (m0 : List (Bytes × Bytes)) (i0 : Nat),
      (∀ r ∈ recs, WfRecord r) →
      (serializeEnv recs).foldl (AppEnv.obfStep P key ivs) (o0, m0, i0) =
        (o0 ++ obfLines P key ivs i0 recs,
         (recs.map (fun r => (tokenize r.1, r.1))).foldl
           (fun d p => dictInsert p.1 p.2 d) m0,
         i0 + recs.length) := by
  intro recs
  induction recs with
  | nil => intro o0 m0 i0 _; simp [serializeEnv, obfLines]
  | cons r rest ih =>
    intro o0 m0 i0 hwf
    have hr : WfRecord r := hwf r (by simp)
    rw [show serializeEnv (r :: rest) =
      (r.1 ++ 61 :: r.2 ++ [10]) :: serializeEnv rest from rfl]
    rw [List.foldl_cons, obfStep_record P key ivs _ r hr]
    rw [ih _ _ _ (fun x hx => hwf x (by simp [hx]))]
    simp only [Prod.mk.injEq]
    refine ⟨by simp [obfLines], rfl, by simp only [List.length_cons]; omega⟩

theorem foldl_dictInsert_fresh :
    ∀ (entries : List (Bytes × Bytes)) (m0 : List (Bytes × Bytes)),
      (∀ e ∈ entries, ∀ p ∈ m0, p.1 ≠ e.1) →
      List.Pairwise (fun a b => a.1 ≠ b.1) entries →
      entries.foldl (fun d p => dictInsert p.1 p.2 d) m0 = m0 ++ entries := by
  intro entries
  induction entries with
  | nil => intro m0 _ _; simp
  | cons e rest ih =>
    intro m0 hfresh hpw
    rw [List.foldl_cons]
    rw [show dictInsert e.1 e.2 m0 = m0 ++ [(e.1, e.2)] from
      dictInsert_fresh e.1 e.2 m0 (fun p hp => hfresh e (by simp) p hp)]
    rw [ih (m0 ++ [(e.1, e.2)]) ?_ (List.pairwise_cons.mp hpw).2]
    · simp
    · intro x hx p hp
      rcases List.mem_append.mp hp with h | h
      · exact hfresh x (by simp [hx]) p h
      · have : p = (e.1, e.2) := by simpa using h
        rw [this]
        exact (List.pairwise_cons.mp hpw).1 x hx

theorem token_line_strip (tok enc : Bytes) (htokne : tok ≠ [])
    (htokchars : ∀ c ∈ tok, c ≠ 61 ∧ isPySpace c = false ∧ c ≠ 10 ∧ c < 256)
    (hencne : enc ≠ [])
    (hencchars : ∀ c ∈ enc, isPySpace c = false ∧ c ≠ 10) :
    pyStrip (tok ++ 61 :: enc ++ [10]) = tok ++ 61 :: enc := by
  have hassoc : tok ++ 61 :: enc ++ [10] = (tok ++ 61 :: enc) ++ ([10] : Bytes) := by
    simp
  rw [hassoc]
  apply pyStrip_newline
  · intro hc
    rw [List.append_eq_nil] at hc
    exact htokne hc.1
  · rw [headD_append_of_ne_nil tok _ htokne]
    exact (htokchars _ (headD_mem tok htokne)).2.1
  · rw [getLastD_append_of_ne_nil tok _ (by simp)]
    rw [show (61 :: enc : Bytes) = [61] ++ enc from rfl,
      getLastD_append_of_ne_nil [61] _ hencne]
    exact (hencchars _ (getLastD_mem enc hencne)).1

theorem deobLine_eq_ok (P : CryptoPrims) (m : List (Bytes × Bytes))
    (k line tok enc name v : Bytes)
    (h61 : 61 ∈ line)
    (hsp : pySplitEq1 (pyStrip line) = (tok, enc))
    (hget : dictGet tok m = some name)
    (hne : name ≠ [])
    (hdec : AppEnv.decrypt_value P enc k name = some v) :
    AppEnv.deobLine P m k line = ([name ++ 61 :: v ++ [10]], []) := by
  unfold AppEnv.deobLine
  rw [if_pos h61, hsp]
  rw [show ((tok, enc) : Bytes × Bytes).1 = tok from rfl,
      show ((tok, enc) : Bytes × Bytes).2 = enc from rfl]
  simp only [hget]
  rw [if_neg hne]
  simp only [hdec]

theorem deobLine_eq_unknown (P : CryptoPrims) (m : List (Bytes × Bytes))
    (k line : Bytes)
    (h61 : 61 ∈ line)
    (hget : dictGet (pySplitEq1 (pyStrip line)).1 m = none) :
    AppEnv.deobLine P m k line =
      ([diagUnknown ++ (pySplitEq1 (pyStrip line)).1 ++ [10]],
       [Msg.unknownKey (pySplitEq1 (pyStrip line)).1]) := by
  unfold AppEnv.deobLine
  rw [if_pos h61]
  simp only [hget]

theorem deobLine_eq_err (P : CryptoPrims) (m : List (Bytes × Bytes))
    (k line name : Bytes)
    (h61 : 61 ∈ line)
    (hget : dictGet (pySplitEq1 (pyStrip line)).1 m = some name)
    (hne : name ≠ [])
    (hdec : AppEnv.decrypt_value P (pySplitEq1 (pyStrip line)).2 k name = none) :
    AppEnv.deobLine P m k line =
      ([diagErrHead ++ name ++ diagErrTailApp ++ [10]], [Msg.decryptErr name]) := by
  unfold AppEnv.deobLine
  rw [if_pos h61]
  simp only [hget]
  rw [if_neg hne]
  simp only [hdec]

theorem simpleLines_keyerror (P : CryptoPrims) (m : List (Bytes × Bytes))
    (k line : Bytes) (rest : List Bytes)
    (h61 : 61 ∈ line)
    (hget : dictGet (pySplitEq1 (pyStrip line)).1 m = none) :
    SimpleEnv.deobfuscateLines P m k (line :: rest) =
      Except.error (PyError.keyError (pySplitEq1 (pyStrip line)).1) := by
  unfold SimpleEnv.deobfuscateLines
  rw [if_pos h61]
  simp only [hget]

theorem simpleLines_err_cons (P : CryptoPrims) (m : List (Bytes × Bytes))
    (k line name : Bytes) (rest : List Bytes) (st : List Bytes × List Msg)
    (h61 : 61 ∈ line)
    (hget : dictGet (pySplitEq1 (pyStrip line)).1 m = some name)
    (hdec : SimpleEnv.decrypt_value P (pySplitEq1 (pyStrip line)).2 k name = none)
    (hrest : SimpleEnv.deobfuscateLines P m k rest = Except.ok st) :
    SimpleEnv.deobfuscateLines P m k (line :: rest) =
      Except.ok ((diagErrHead ++ name ++ diagErrTailSimple ++ [10]) :: st.1,
        Msg.decryptErr name :: st.2) := by
  unfold SimpleEnv.deobfuscateLines
  rw [if_pos h61]
  simp only [hget, hdec, hrest]

theorem jsonEntries_keyerror (P : CryptoPrims) (mapping : List (Bytes × Bytes))
    (key : Bytes) (acc : List (Bytes × Bytes)) (tok enc : Bytes)
    (rest : List (Bytes × Bytes))
    (hget : dictGet tok mapping = none) :
    JsonCodec.deobfuscateEntries P mapping key acc ((tok, enc) :: rest) =
      Except.error (PyError.keyError tok) := by
  unfold JsonCodec.deobfuscateEntries
  rw [show ((tok, enc) : Bytes × Bytes).1 = tok from rfl]
  simp only [hget]

theorem jsonEntries_valueerror (P : CryptoPrims) (mapping : List (Bytes × Bytes))
    (key : Bytes) (acc : List (Bytes × Bytes)) (tok enc name : Bytes)
    (rest : List (Bytes × Bytes))
    (hget : dictGet tok mapping = some name)
    (hdec : JsonCodec.decrypt_value P enc key = none) :
    JsonCodec.deobfuscateEntries P mapping key acc ((tok, enc) :: rest) =
      Except.error PyError.valueError := by
  unfold JsonCodec.deobfuscateEntries
  rw [show ((tok, enc) : Bytes × Bytes).1 = tok from rfl,
      show ((tok, enc) : Bytes × Bytes).2 = enc from rfl]
  simp only [hget, hdec]

theorem deobLine_obfLine (P : CryptoPrims) (mapping : List (Bytes × Bytes))
    (key : Bytes) (ivs : List Bytes) (i : Nat) (r : Bytes × Bytes)
    (hr : WfRecord r)
    (hmap : dictGet (tokenize r.1) mapping = some r.1)
    (hivlen : (ivs.getD i []).length = 16)
    (hivlt : ∀ x ∈ ivs.getD i [], x < 256) :
    AppEnv.deobLine P mapping key (obfRecordLine P key ivs i r) =
      ([r.1 ++ 61 :: r.2 ++ [10]], []) := by
  have hbytes1 : ∀ x ∈ r.1, x < 256 := fun x hx => by
    have := hr.2.2.1 x hx; omega
  have hbytes2 : ∀ x ∈ r.2, x < 256 := fun x hx => by
    have := hr.2.2.2.1 x hx; omega
  have htokne := tokenize_ne_nil r.1 hr.1 hbytes1
  have htokchars := tokenize_chars r.1 hbytes1
  have hivne : ivs.getD i [] ≠ [] := by
    intro hc; rw [hc] at hivlen; simp at hivlen
  have hencne := appEnv_encrypt_value_ne_nil P r.2 key r.1 _ hivne
  have hencchars := appEnv_encrypt_value_chars P r.2 key r.1 _ hivlt
  have hstrip := token_line_strip (tokenize r.1)
    (AppEnv.encrypt_value P r.2 key r.1 (ivs.getD i []))
    htokne htokchars hencne hencchars
  have hsplit := pySplitEq1_append (tokenize r.1)
    (AppEnv.encrypt_value P r.2 key r.1 (ivs.getD i []))
    (tokenize_not_mem_61 r.1 hbytes1)
  have hdec := appEnv_decrypt_encrypt P r.2 key r.1 _ hivlen hivlt hbytes2
  have hmem : 61 ∈ obfRecordLine P key ivs i r := by
    unfold obfRecordLine; simp
  refine deobLine_eq_ok P mapping key (obfRecordLine P key ivs i r)
    (tokenize r.1) (AppEnv.encrypt_value P r.2 key r.1 (ivs.getD i []))
    r.1 r.2 hmem ?_ hmap hr.1 hdec
  rw [show obfRecordLine P key ivs i r = tokenize r.1 ++ 61 ::
    AppEnv.encrypt_value P r.2 key r.1 (ivs.getD i []) ++ [10] from rfl, hstrip]
  exact hsplit

theorem deobLines_map (P : CryptoPrims) (mapping : List (Bytes × Bytes))
    (key : Bytes) (ivs : List Bytes) :
    ∀ (recs : List (Bytes × Bytes)) (i0 : Nat),
      (∀ r ∈ recs, WfRecord r) →
      (∀ r ∈ recs, dictGet (tokenize r.1) mapping = some r.1) →
      (∀ i, i0 ≤ i → i < i0 + recs.length →
        (ivs.getD i []).length = 16 ∧ ∀ x ∈ ivs.getD i [], x < 256) →
      (obfLines P key ivs i0 recs).map (AppEnv.deobLine P mapping key) =
        recs.map (fun r => ([r.1 ++ 61 :: r.2 ++ [10]], ([] : List Msg))) := by
  intro recs
  induction recs with
  | nil => intro i0 _ _ _; rfl
  | cons r rest ih =>
    intro i0 hwf hmap hiv
    rw [show obfLines P key ivs i0 (r :: rest) =
      obfRecordLine P key ivs i0 r :: obfLines P key ivs (i0 + 1) rest from rfl]
    rw [List.map_cons, List.map_cons]
    have hi0 := hiv i0 (le_refl i0) (by simp)
    rw [deobLine_obfLine P mapping key ivs i0 r (hwf r (by simp))
      (hmap r (by simp)) hi0.1 hi0.2]
    rw [ih (i0 + 1) (fun x hx => hwf x (by simp [hx]))
      (fun x hx => hmap x (by simp [hx]))
      (fun i h1 h2 => hiv i (by omega)
        (by simp only [List.length_cons] at h2 ⊢; omega))]

theorem jsonFold (P : CryptoPrims) (key : Bytes) (ivs : List Bytes) :
    ∀ (recs : List (Bytes × Bytes)) (d0 m0 : List (Bytes × Bytes)) (i0 : Nat),
      (∀ r ∈ recs, ∀ p ∈ d0, p.1 ≠ tokenize r.1) →
      (∀ r ∈ recs, ∀ p ∈ m0, p.1 ≠ tokenize r.1) →
      List.Pairwise (fun a b => tokenize a.1 ≠ tokenize b.1) recs →
      recs.foldl (JsonCodec.jsonObfStep P key ivs) (d0, m0, i0) =
        (d0 ++ jsonObfEntries P key ivs i0 recs,
         m0 ++ recs.map (fun r => (tokenize r.1, r.1)), i0 + recs.length) := by
  intro recs
  induction recs with
  | nil => intro d0 m0 i0 _ _ _; simp [jsonObfEntries]
  | cons r rest ih =>
    intro d0 m0 i0 hd hm hpw
    rw [List.foldl_cons]
    have hstep : JsonCodec.jsonObfStep P key ivs (d0, m0, i0) r =
        (d0 ++ [(tokenize r.1, JsonCodec.encrypt_value P r.2 key (ivs.getD i0 []))],
         m0 ++ [(tokenize r.1, r.1)], i0 + 1) := by
      unfold JsonCodec.jsonObfStep
      simp only []
      rw [dictInsert_fresh _ _ _ (fun p hp => hd r (by simp) p hp),
        dictInsert_fresh _ _ _ (fun p hp => hm r (by simp) p hp)]
    rw [hstep]
    rw [ih _ _ _ ?_ ?_ (List.pairwise_cons.mp hpw).2]
    · simp only [Prod.mk.injEq]
      refine ⟨by simp [jsonObfEntries], by simp, by simp only [List.length_cons]; omega⟩
    · intro x hx p hp
      rcases List.mem_append.mp hp with h | h
      · exact hd x (by simp [hx]) p h
      · have hpe : p = (tokenize r.1, JsonCodec.encrypt_value P r.2 key (ivs.getD i0 [])) := by
          simpa using h
        rw [hpe]
        exact (List.pairwise_cons.mp hpw).1 x hx
    · intro x hx p hp
      rcases List.mem_append.mp hp with h | h
      · exact hm x (by simp [hx]) p h
      · have hpe : p = (tokenize r.1, r.1) := by simpa using h
        rw [hpe]
        exact (List.pairwise_cons.mp hpw).1 x hx

theorem jsonDeobEntries (P : CryptoPrims) (mapping : List (Bytes × Bytes))
    (key : Bytes) (ivs : List Bytes) :
    ∀ (recs : List (Bytes × Bytes)) (acc : List (Bytes × Bytes)) (i0 : Nat),
      (∀ r ∈ recs, dictGet (tokenize r.1) mapping = some r.1) →
      (∀ i, i0 ≤ i → i < i0 + recs.length →
        (ivs.getD i []).length = 16 ∧ ∀ x ∈ ivs.getD i [], x < 256) →
      (∀ r ∈ recs, ∀ x ∈ r.2, x < 256) →
      JsonCodec.deobfuscateEntries P mapping key acc (jsonObfEntries P key ivs i0 recs) =
        Except.ok (recs.foldl (fun d r => dictInsert r.1 r.2 d) acc) := by
  intro recs
  induction recs with
  | nil => intro acc i0 _ _ _; rfl
  | cons r rest ih =>
    intro acc i0 hmap hiv hval
    have hi0 := hiv i0 (le_refl i0) (by simp)
    have hdec := jsonCodec_decrypt_encrypt P r.2 key (ivs.getD i0 [])
      hi0.1 hi0.2 (hval r (by simp))
    rw [show jsonObfEntries P key ivs i0 (r :: rest) =
      (tokenize r.1, JsonCodec.encrypt_value P r.2 key (ivs.getD i0 [])) ::
      jsonObfEntries P key ivs (i0 + 1) rest from rfl]
    unfold JsonCodec.deobfuscateEntries
    simp only [hmap r (by simp), hdec]
    rw [ih _ (i0 + 1) (fun x hx => hmap x (by simp [hx]))
      (fun i h1 h2 => hiv i (by omega)
        (by simp only [List.length_cons] at h2 ⊢; omega))
      (fun x hx => hval x (by simp [hx]))]
    rfl

theorem appDeob_cons (P : CryptoPrims) (art : MappingArtifact)
    (password app_key : Bytes) (l : Bytes) (ls : List Bytes) :
    (AppEnv.deobfuscate_env_file P (l :: ls) art password app_key).1 =
      (AppEnv.deobLine P art.mapping
        (AppEnv.generate_key P password app_key (b64decode stdAlphabet art.saltB64)) l).1 ++
      (AppEnv.deobfuscate_env_file P ls art password app_key).1 := by
  unfold AppEnv.deobfuscate_env_file
  simp

theorem deobLine_no_tamper (P : CryptoPrims) (m : List (Bytes × Bytes))
    (k line : Bytes) : Msg.tamper ∉ (AppEnv.deobLine P m k line).2 := by
  unfold AppEnv.deobLine
  by_cases h : 61 ∈ line
  · rw [if_pos h]
    rcases hd : dictGet (pySplitEq1 (pyStrip line)).1 m with _ | name
    · simp [hd]
    · simp only [hd]
      by_cases hnil : name = []
      · simp [hnil]
      · rw [if_neg hnil]
        rcases hdec : AppEnv.decrypt_value P (pySplitEq1 (pyStrip line)).2 k name with _ | v
        · simp [hdec]
        · simp [hdec]
  · rw [if_neg h]
    simp

theorem obfStep_no_eq (P : CryptoPrims) (key : Bytes) (ivs : List Bytes)
    (st : List Bytes × List (Bytes × Bytes) × Nat) (line : Bytes)
    (h : 61 ∉ line) : AppEnv.obfStep P key ivs st line = st := by
  unfold AppEnv.obfStep
  rw [if_neg h]

theorem obfFold_filter (P : CryptoPrims) (key : Bytes) (ivs : List Bytes) :
    ∀ (lines : List Bytes) (st : List Bytes × List (Bytes × Bytes) × Nat),
      lines.foldl (AppEnv.obfStep P key ivs) st =
        (lines.filter (fun l => decide (61 ∈ l))).foldl (AppEnv.obfStep P key ivs) st := by
  intro lines
  induction lines with
  | nil => intro st; rfl
  | cons l ls ih =>
    intro st
    by_cases h : 61 ∈ l
    · rw [List.foldl_cons, show (l :: ls).filter (fun l => decide (61 ∈ l)) =
        l :: ls.filter (fun l => decide (61 ∈ l)) from by simp [List.filter_cons, h],
        List.foldl_cons, ih]
    · rw [List.foldl_cons, obfStep_no_eq P key ivs st l h,
        show (l :: ls).filter (fun l => decide (61 ∈ l)) =
        ls.filter (fun l => decide (61 ∈ l)) from by simp [List.filter_cons, h], ih]

theorem obfFold_lines_have_eq (P : CryptoPrims) (key : Bytes) (ivs : List Bytes) :
    ∀ (lines : List Bytes) (st : List Bytes × List (Bytes × Bytes) × Nat),
      (∀ l ∈ st.1, 61 ∈ l) →
      ∀ l ∈ (lines.foldl (AppEnv.obfStep P key ivs) st).1, 61 ∈ l := by
  intro lines
  induction lines with
  | nil => intro st h; exact h
  | cons x ls ih =>
    intro st h
    rw [List.foldl_cons]
    apply ih
    by_cases hx : 61 ∈ x
    · unfold AppEnv.obfStep
      rw [if_pos hx]
      intro l hl
      simp only [List.mem_append, List.mem_singleton] at hl
      rcases hl with hl | rfl
      · exact h l hl
      · simp
    · rw [obfStep_no_eq P key ivs st x hx]
      exact h

theorem obfFold_monotone (P : CryptoPrims) (key : Bytes) (ivs : List Bytes) :
    ∀ (lines : List Bytes) (st : List Bytes × List (Bytes × Bytes) × Nat),
      st.1 <+: (lines.foldl (AppEnv.obfStep P key ivs) st).1 := by
  intro lines
  induction lines with
  | nil => intro st; exact List.prefix_refl st.1
  | cons x ls ih =>
    intro st
    rw [List.foldl_cons]
    refine List.IsPrefix.trans ?_ (ih (AppEnv.obfStep P key ivs st x))
    unfold AppEnv.obfStep
    by_cases hx : 61 ∈ x
    · rw [if_pos hx]
      exact ⟨_, rfl⟩
    · rw [if_neg hx]

theorem simple_obfStep_eq : SimpleEnv.obfStep = AppEnv.obfStep := rfl

/-- C8: for every plaintext value, key and 16-byte IV, decrypting the
value-cipher output (base64 of IV ‖ AES-256-CBC of the PKCS7-padded
plaintext) with the same key and original name returns exactly the
plaintext: the decryptor base64-decodes, splits off the first 16 bytes as
IV, decrypts the remainder and strips the PKCS7 padding. -/
theorem claim8_value_cipher_round_trip (P : CryptoPrims)
    (value key original_key_name iv : Bytes)
    (hivlen : iv.length = 16) (hivlt : ∀ x ∈ iv, x < 256)
    (hv : ∀ x ∈ value, x < 256) :
    AppEnv.decrypt_value P (AppEnv.encrypt_value P value key original_key_name iv)
      key original_key_name = some value :=
  appEnv_decrypt_encrypt P value key original_key_name iv hivlen hivlt hv

/-- Witness for C8 at a concrete input. -/
theorem claim8_witness :
    (List.replicate 16 7 : Bytes).length = 16 ∧
    (∀ x ∈ (List.replicate 16 7 : Bytes), x < 256) ∧
    (∀ x ∈ ([72, 105] : Bytes), x < 256) ∧
    AppEnv.decrypt_value toyPrims
      (AppEnv.encrypt_value toyPrims [72, 105] [9, 9] [75] (List.replicate 16 7))
      [9, 9] [75] = some [72, 105] :=
  ⟨by decide, by decide, by decide,
   claim8_value_cipher_round_trip toyPrims [72, 105] [9, 9] [75]
     (List.replicate 16 7) (by decide) (by decide) (by decide)⟩

/-- C9: the token the line codec emits (URL-safe base64 of the key name with
padding stripped) contains neither `'='` nor a newline, the base64
ciphertext contains no newline, and splitting the stripped obfuscated
record line on its first `'='` recovers exactly the token and the full
ciphertext. -/
theorem claim9_token_split (P : CryptoPrims) (key_name value key iv : Bytes)
    (hname_ne : key_name ≠ []) (hname : ∀ x ∈ key_name, x < 256)
    (hivlen : iv.length = 16) (hivlt : ∀ x ∈ iv, x < 256) :
    61 ∉ tokenize key_name ∧ 10 ∉ tokenize key_name ∧
    10 ∉ AppEnv.encrypt_value P value key key_name iv ∧
    pySplitEq1 (pyStrip (tokenize key_name ++ 61 ::
        AppEnv.encrypt_value P value key key_name iv ++ [10])) =
      (tokenize key_name, AppEnv.encrypt_value P value key key_name iv) := by
  have htokchars := tokenize_chars key_name hname
  have htokne := tokenize_ne_nil key_name hname_ne hname
  have hivne : iv ≠ [] := by intro hc; rw [hc] at hivlen; simp at hivlen
  have hencne := appEnv_encrypt_value_ne_nil P value key key_name iv hivne
  have hencchars := appEnv_encrypt_value_chars P value key key_name iv hivlt
  refine ⟨tokenize_not_mem_61 key_name hname, ?_, ?_, ?_⟩
  · intro hc; exact (htokchars 10 hc).2.2.1 rfl
  · intro hc; exact (hencchars 10 hc).2 rfl
  · rw [token_line_strip _ _ htokne htokchars hencne hencchars]
    exact pySplitEq1_append _ _ (tokenize_not_mem_61 key_name hname)

/-- Witness for C9 at a concrete input. -/
theorem claim9_witness :
    ([68, 66] : Bytes) ≠ [] ∧
    (∀ x ∈ ([68, 66] : Bytes), x < 256) ∧
    (List.replicate 16 9 : Bytes).length = 16 ∧
    (∀ x ∈ (List.replicate 16 9 : Bytes), x < 256) ∧
    (61 ∉ tokenize [68, 66] ∧ 10 ∉ tokenize [68, 66] ∧
     10 ∉ AppEnv.encrypt_value toyPrims [53] [8] [68, 66] (List.replicate 16 9) ∧
     pySplitEq1 (pyStrip (tokenize [68, 66] ++ 61 ::
         AppEnv.encrypt_value toyPrims [53] [8] [68, 66] (List.replicate 16 9) ++ [10])) =
       (tokenize [68, 66],
        AppEnv.encrypt_value toyPrims [53] [8] [68, 66] (List.replicate 16 9))) :=
  ⟨by decide, by decide, by decide, by decide,
   claim9_token_split toyPrims [68, 66] [53] [8] (List.replicate 16 9)
     (by decide) (by decide) (by decide) (by decide)⟩

/-- C7: when the stored signature is present and the recomputed signature
differs, the app-key line codec emits the tamper warning and still processes
every record; its per-record output and remaining diagnostics are exactly
those of the run with no stored signature. -/
theorem claim7_tamper_warning_continues (P : CryptoPrims) (input_lines : List Bytes)
    (art : MappingArtifact) (password app_key : Bytes) (stored : Bytes)
    (hsig : art.signature = some stored) (hne : stored ≠ [])
    (hmm : AppEnv.generate_file_signature P input_lines.flatten
      (AppEnv.generate_key P password app_key (b64decode stdAlphabet art.saltB64)) ≠
      stored) :
    AppEnv.deobfuscate_env_file P input_lines art password app_key =
      ((AppEnv.deobfuscate_env_file P input_lines
          ⟨art.saltB64, art.mapping, none⟩ password app_key).1,
       Msg.tamper ::
       (AppEnv.deobfuscate_env_file P input_lines
          ⟨art.saltB64, art.mapping, none⟩ password app_key).2) := by
  unfold AppEnv.deobfuscate_env_file
  simp only [hsig]
  rw [if_pos hne, if_pos hmm]
  simp

/-- Witness for C7 at a concrete input. -/
theorem claim7_witness :
    (MappingArtifact.mk [] [] (some [1])).signature = some [1] ∧
    ([1] : Bytes) ≠ [] ∧
    (AppEnv.generate_file_signature toyPrims ([[97, 61, 10]] : List Bytes).flatten
      (AppEnv.generate_key toyPrims [3] [4]
        (b64decode stdAlphabet (MappingArtifact.mk [] [] (some [1])).saltB64)) ≠ [1]) ∧
    AppEnv.deobfuscate_env_file toyPrims [[97, 61, 10]]
      (MappingArtifact.mk [] [] (some [1])) [3] [4] =
      ((AppEnv.deobfuscate_env_file toyPrims [[97, 61, 10]]
          ⟨[], [], none⟩ [3] [4]).1,
       Msg.tamper ::
       (AppEnv.deobfuscate_env_file toyPrims [[97, 61, 10]]
          ⟨[], [], none⟩ [3] [4]).2) :=
  ⟨rfl, by decide, by decide,
   claim7_tamper_warning_continues toyPrims [[97, 61, 10]]
     (MappingArtifact.mk [] [] (some [1])) [3] [4] [1] rfl (by decide) (by decide)⟩

theorem sig_self_collapse (s : Bytes) :
    (if s ≠ [] then (if s ≠ s then [Msg.tamper] else ([] : List Msg)) else []) = [] := by
  rw [if_neg (fun h : s ≠ s => h rfl), ite_self]

/-- C10: with no signature field in the mapping artifact, the app-key line
codec performs no integrity verification and emits no warning: the run is
exactly the run whose stored signature verifies, and no tamper warning
appears among its diagnostics. -/
theorem claim10_missing_signature (P : CryptoPrims) (input_lines : List Bytes)
    (art : MappingArtifact) (password app_key : Bytes)
    (hsig : art.signature = none) :
    AppEnv.deobfuscate_env_file P input_lines art password app_key =
      AppEnv.deobfuscate_env_file P input_lines
        ⟨art.saltB64, art.mapping,
         some (AppEnv.generate_file_signature P input_lines.flatten
           (AppEnv.generate_key P password app_key
             (b64decode stdAlphabet art.saltB64)))⟩ password app_key ∧
    Msg.tamper ∉ (AppEnv.deobfuscate_env_file P input_lines art password app_key).2 := by
  constructor
  · unfold AppEnv.deobfuscate_env_file
    simp only [hsig]
    rw [sig_self_collapse]
  · unfold AppEnv.deobfuscate_env_file
    simp only [hsig]
    intro hc
    simp only [List.nil_append] at hc
    rw [List.mem_flatten] at hc
    obtain ⟨ms, hms, hmem⟩ := hc
    rw [List.mem_map] at hms
    obtain ⟨pr, hpr, rfl⟩ := hms
    rw [List.mem_map] at hpr
    obtain ⟨line, hline, rfl⟩ := hpr
    exact deobLine_no_tamper P art.mapping _ line hmem

/-- Witness for C10 at a concrete input. -/
theorem claim10_witness :
    (MappingArtifact.mk [] [] none).signature = none ∧
    (AppEnv.deobfuscate_env_file toyPrims [[97, 61, 10]]
        (MappingArtifact.mk [] [] none) [3] [4] =
      AppEnv.deobfuscate_env_file toyPrims [[97, 61, 10]]
        ⟨(MappingArtifact.mk ([] : Bytes) [] none).saltB64,
         (MappingArtifact.mk ([] : Bytes) [] none).mapping,
         some (AppEnv.generate_file_signature toyPrims
           ([[97, 61, 10]] : List Bytes).flatten
           (AppEnv.generate_key toyPrims [3] [4]
             (b64decode stdAlphabet (MappingArtifact.mk ([] : Bytes) [] none).saltB64)))⟩
        [3] [4] ∧
     Msg.tamper ∉ (AppEnv.deobfuscate_env_file toyPrims [[97, 61, 10]]
        (MappingArtifact.mk [] [] none) [3] [4]).2) :=
  ⟨rfl, claim10_missing_signature toyPrims [[97, 61, 10]]
    (MappingArtifact.mk [] [] none) [3] [4] rfl⟩

theorem flatten_fst_map_pair : ∀ (recs : List (Bytes × Bytes)),
    ((recs.map (fun r => ([r.1 ++ 61 :: r.2 ++ [10]], ([] : List Msg)))).map
      Prod.fst).flatten = serializeEnv recs := by
  intro recs
  induction recs with
  | nil => rfl
  | cons r rest ih => simp only [List.map_cons, List.flatten_cons, ih]; rfl

theorem flatten_snd_map_pair : ∀ (recs : List (Bytes × Bytes)),
    ((recs.map (fun r => ([r.1 ++ 61 :: r.2 ++ [10]], ([] : List Msg)))).map
      Prod.snd).flatten = [] := by
  intro recs
  induction recs with
  | nil => rfl
  | cons r rest ih => simp only [List.map_cons, List.flatten_cons, ih]; rfl

theorem ivs_getD_ok (ivs : List Bytes)
    (hivs : ∀ iv ∈ ivs, iv.length = 16 ∧ ∀ x ∈ iv, x < 256)
    (i : Nat) (hi : i < ivs.length) :
    (ivs.getD i []).length = 16 ∧ ∀ x ∈ ivs.getD i [], x < 256 := by
  rw [List.getD_eq_getElem ivs [] hi]
  exact hivs _ (ivs.getElem_mem hi)

/-- C1: obfuscating a well-formed key-value document with a password and
app-key and deobfuscating the output with the same password, app-key and the
produced mapping artifact restores the document exactly — for the line codec
(with no diagnostics emitted) and for the JSON codec alike. -/
theorem claim1_round_trip (P : CryptoPrims) (password app_key salt : Bytes)
    (ivs : List Bytes) (recs jrecs : List (Bytes × Bytes))
    (hwf : ∀ r ∈ recs, WfRecord r)
    (hnodup : (recs.map Prod.fst).Nodup)
    (hlen1 : recs.length ≤ ivs.length)
    (hjname : ∀ r ∈ jrecs, ∀ x ∈ r.1, x < 256)
    (hjval : ∀ r ∈ jrecs, ∀ x ∈ r.2, x < 256)
    (hjnodup : (jrecs.map Prod.fst).Nodup)
    (hlen2 : jrecs.length ≤ ivs.length)
    (hsalt : ∀ x ∈ salt, x < 256)
    (hivs : ∀ iv ∈ ivs, iv.length = 16 ∧ ∀ x ∈ iv, x < 256) :
    (AppEnv.deobfuscate_env_file P
      (AppEnv.obfuscate_env_file P (serializeEnv recs) password app_key salt ivs).1
      (AppEnv.obfuscate_env_file P (serializeEnv recs) password app_key salt ivs).2
      password app_key = (serializeEnv recs, [])) ∧
    (JsonCodec.deobfuscate_json P
      (JsonCodec.obfuscate_json P jrecs password salt ivs).1
      (JsonCodec.obfuscate_json P jrecs password salt ivs).2
      password salt = Except.ok jrecs) := by
  constructor
  · -- line codec
    have hbytes : ∀ r ∈ recs, ∀ x ∈ r.1, x < 256 := fun r hr x hx => by
      have := (hwf r hr).2.2.1 x hx; omega
    have hpw1 : List.Pairwise (fun a b : Bytes × Bytes => a.1 ≠ b.1) recs :=
      List.pairwise_map.mp hnodup
    have hpwtok : List.Pairwise
        (fun a b : Bytes × Bytes => tokenize a.1 ≠ tokenize b.1) recs := by
      refine List.Pairwise.imp_of_mem ?_ hpw1
      intro a b ha hb hne hc
      exact hne (tokenize_inj (hbytes a ha) (hbytes b hb) hc)
    have hpwent : List.Pairwise (fun a b : Bytes × Bytes => a.1 ≠ b.1)
        (recs.map (fun r => (tokenize r.1, r.1))) := by
      rw [List.pairwise_map]
      exact hpwtok
    have hfold := obfFold_serialized P (AppEnv.generate_key P password app_key salt)
      ivs recs [] [] 0 hwf
    have hmapfold := foldl_dictInsert_fresh (recs.map (fun r => (tokenize r.1, r.1)))
      [] (fun e _ p hp => absurd hp (List.not_mem_nil p)) hpwent
    have hobf : AppEnv.obfuscate_env_file P (serializeEnv recs) password app_key salt ivs =
        (obfLines P (AppEnv.generate_key P password app_key salt) ivs 0 recs,
         ⟨b64encode stdAlphabet salt, recs.map (fun r => (tokenize r.1, r.1)),
          some (AppEnv.generate_file_signature P
            (obfLines P (AppEnv.generate_key P password app_key salt) ivs 0 recs).flatten
            (AppEnv.generate_key P password app_key salt))⟩) := by
      simp only [AppEnv.obfuscate_env_file]
      rw [hfold, hmapfold]
      simp
    have hsalt2 : b64decode stdAlphabet (b64encode stdAlphabet salt) = salt :=
      b64decode_encode stdAlphabet_good salt hsalt
    have hmapget : ∀ r ∈ recs,
        dictGet (tokenize r.1) (recs.map (fun x => (tokenize x.1, x.1))) = some r.1 :=
      fun r hr => dictGet_tokens recs r hr hpwtok
    have hdeoblines := deobLines_map P (recs.map (fun x => (tokenize x.1, x.1)))
      (AppEnv.generate_key P password app_key salt) ivs recs 0 hwf hmapget
      (fun i _ h2 => ivs_getD_ok ivs hivs i (by
        simp only [Nat.zero_add] at h2; omega))
    rw [hobf]
    unfold AppEnv.deobfuscate_env_file
    simp only [hsalt2]
    rw [sig_self_collapse, hdeoblines, flatten_fst_map_pair, flatten_snd_map_pair]
    rfl
  · -- JSON codec
    have hjpw1 : List.Pairwise (fun a b : Bytes × Bytes => a.1 ≠ b.1) jrecs :=
      List.pairwise_map.mp hjnodup
    have hjpwtok : List.Pairwise
        (fun a b : Bytes × Bytes => tokenize a.1 ≠ tokenize b.1) jrecs := by
      refine List.Pairwise.imp_of_mem ?_ hjpw1
      intro a b ha hb hne hc
      exact hne (tokenize_inj (hjname a ha) (hjname b hb) hc)
    have hjfold := jsonFold P (JsonCodec.generate_key P password salt) ivs jrecs [] [] 0
      (fun r _ p hp => absurd hp (List.not_mem_nil p))
      (fun r _ p hp => absurd hp (List.not_mem_nil p)) hjpwtok
    have hjobf : JsonCodec.obfuscate_json P jrecs password salt ivs =
        (jsonObfEntries P (JsonCodec.generate_key P password salt) ivs 0 jrecs,
         jrecs.map (fun r => (tokenize r.1, r.1))) := by
      simp only [JsonCodec.obfuscate_json]
      rw [hjfold]
      simp
    have hjget : ∀ r ∈ jrecs,
        dictGet (tokenize r.1) (jrecs.map (fun x => (tokenize x.1, x.1))) = some r.1 :=
      fun r hr => dictGet_tokens jrecs r hr hjpwtok
    have hjdeob := jsonDeobEntries P (jrecs.map (fun x => (tokenize x.1, x.1)))
      (JsonCodec.generate_key P password salt) ivs jrecs [] 0 hjget
      (fun i _ h2 => ivs_getD_ok ivs hivs i (by
        simp only [Nat.zero_add] at h2; omega)) hjval
    have hjacc := foldl_dictInsert_fresh jrecs []
      (fun e _ p hp => absurd hp (List.not_mem_nil p)) hjpw1
    rw [hjobf]
    unfold JsonCodec.deobfuscate_json
    rw [hjdeob, hjacc]
    simp

/-- Witness for C1 at a concrete two-record document for each codec. -/
theorem claim1_witness :
    (∀ r ∈ ([([65], [48]), ([66], [49])] : List (Bytes × Bytes)), WfRecord r) ∧
    ((([([65], [48]), ([66], [49])] : List (Bytes × Bytes)).map Prod.fst).Nodup) ∧
    (([([65], [48]), ([66], [49])] : List (Bytes × Bytes)).length ≤
      ([List.replicate 16 3, List.replicate 16 4] : List Bytes).length) ∧
    (∀ r ∈ ([([67], [50]), ([68], [51])] : List (Bytes × Bytes)), ∀ x ∈ r.1, x < 256) ∧
    (∀ r ∈ ([([67], [50]), ([68], [51])] : List (Bytes × Bytes)), ∀ x ∈ r.2, x < 256) ∧
    ((([([67], [50]), ([68], [51])] : List (Bytes × Bytes)).map Prod.fst).Nodup) ∧
    (([([67], [50]), ([68], [51])] : List (Bytes × Bytes)).length ≤
      ([List.replicate 16 3, List.replicate 16 4] : List Bytes).length) ∧
    (∀ x ∈ (List.replicate 16 2 : Bytes), x < 256) ∧
    (∀ iv ∈ ([List.replicate 16 3, List.replicate 16 4] : List Bytes),
      iv.length = 16 ∧ ∀ x ∈ iv, x < 256) ∧
    ((AppEnv.deobfuscate_env_file toyPrims
        (AppEnv.obfuscate_env_file toyPrims
          (serializeEnv [([65], [48]), ([66], [49])]) [112] [107]
          (List.replicate 16 2) [List.replicate 16 3, List.replicate 16 4]).1
        (AppEnv.obfuscate_env_file toyPrims
          (serializeEnv [([65], [48]), ([66], [49])]) [112] [107]
          (List.replicate 16 2) [List.replicate 16 3, List.replicate 16 4]).2
        [112] [107] = (serializeEnv [([65], [48]), ([66], [49])], [])) ∧
     (JsonCodec.deobfuscate_json toyPrims
        (JsonCodec.obfuscate_json toyPrims [([67], [50]), ([68], [51])] [112]
          (List.replicate 16 2) [List.replicate 16 3, List.replicate 16 4]).1
        (JsonCodec.obfuscate_json toyPrims [([67], [50]), ([68], [51])] [112]
          (List.replicate 16 2) [List.replicate 16 3, List.replicate 16 4]).2
        [112] (List.replicate 16 2) = Except.ok [([67], [50]), ([68], [51])])) :=
  ⟨by decide, by decide, by decide, by decide, by decide, by decide, by decide,
   by decide, by decide,
   claim1_round_trip toyPrims [112] [107] (List.replicate 16 2)
     [List.replicate 16 3, List.replicate 16 4]
     [([65], [48]), ([66], [49])] [([67], [50]), ([68], [51])]
     (by decide) (by decide) (by decide) (by decide) (by decide) (by decide)
     (by decide) (by decide) (by decide)⟩

theorem obfLines_eq_subkeySpec (P : CryptoPrims) (key : Bytes) (ivs : List Bytes) :
    ∀ (recs : List (Bytes × Bytes)) (i : Nat),
      obfLines P key ivs i recs = obfLinesSubkeySpec P key ivs i recs := by
  intro recs
  induction recs with
  | nil => intro i; rfl
  | cons r rest ih =>
    intro i
    rw [show obfLines P key ivs i (r :: rest) =
      obfRecordLine P key ivs i r :: obfLines P key ivs (i + 1) rest from rfl]
    rw [ih (i + 1)]
    rfl

theorem jsonEntries_eq_masterSpec (P : CryptoPrims) (key : Bytes) (ivs : List Bytes) :
    ∀ (recs : List (Bytes × Bytes)) (i : Nat),
      jsonObfEntries P key ivs i recs = jsonEntriesMasterSpec P key ivs i recs := by
  intro recs
  induction recs with
  | nil => intro i; rfl
  | cons r rest ih =>
    intro i
    rw [show jsonObfEntries P key ivs i (r :: rest) =
      (tokenize r.1, JsonCodec.encrypt_value P r.2 key (ivs.getD i [])) ::
      jsonObfEntries P key ivs (i + 1) rest from rfl]
    rw [ih (i + 1)]
    rfl

/-- Counterexample for C2: in the JSON codec the stored ciphertext of a
record differs from the encryption of its value under the per-record sub-key
HMAC(master, name) with the same IV — the JSON codec does not derive
per-record sub-keys. -/
theorem claim2_counterexample :
    (JsonCodec.obfuscate_json toyPrims [([65], [66])] [1] (List.replicate 16 0)
      [List.replicate 16 3]).1 ≠
    [(tokenize [65],
      b64encode stdAlphabet (List.replicate 16 3 ++
        cbcEncrypt toyPrims
          (toyPrims.hmacSHA256
            (JsonCodec.generate_key toyPrims [1] (List.replicate 16 0)) [65])
          (List.replicate 16 3) (pkcs7pad [66])))] := by decide

/-- C2 amended: in the line codec every record's value is encrypted under
the sub-key HMAC-SHA-256 of its original name keyed by the master key, so
two line-codec records share entry-key material only if that HMAC collides
on their names; the JSON codec instead encrypts every value directly under
the master key. -/
theorem claim2_subkey_derivation (P : CryptoPrims) (password app_key salt : Bytes)
    (ivs : List Bytes) (recs jrecs : List (Bytes × Bytes))
    (hwf : ∀ r ∈ recs, WfRecord r)
    (hjname : ∀ r ∈ jrecs, ∀ x ∈ r.1, x < 256)
    (hjnodup : (jrecs.map Prod.fst).Nodup) :
    ((AppEnv.obfuscate_env_file P (serializeEnv recs) password app_key salt ivs).1 =
      obfLinesSubkeySpec P (AppEnv.generate_key P password app_key salt) ivs 0 recs) ∧
    ((JsonCodec.obfuscate_json P jrecs password salt ivs).1 =
      jsonEntriesMasterSpec P (JsonCodec.generate_key P password salt) ivs 0 jrecs) ∧
    (∀ n1 n2 : Bytes,
      AppEnv.derive_value_specific_key P (AppEnv.generate_key P password app_key salt) n1 =
        AppEnv.derive_value_specific_key P (AppEnv.generate_key P password app_key salt) n2 ↔
      P.hmacSHA256 (AppEnv.generate_key P password app_key salt) n1 =
        P.hmacSHA256 (AppEnv.generate_key P password app_key salt) n2) := by
  refine ⟨?_, ?_, fun n1 n2 => Iff.rfl⟩
  · have hfold := obfFold_serialized P (AppEnv.generate_key P password app_key salt)
      ivs recs [] [] 0 hwf
    simp only [AppEnv.obfuscate_env_file]
    rw [hfold]
    simp only [List.nil_append]
    exact obfLines_eq_subkeySpec P _ ivs recs 0
  · have hjpw1 : List.Pairwise (fun a b : Bytes × Bytes => a.1 ≠ b.1) jrecs :=
      List.pairwise_map.mp hjnodup
    have hjpwtok : List.Pairwise
        (fun a b : Bytes × Bytes => tokenize a.1 ≠ tokenize b.1) jrecs := by
      refine List.Pairwise.imp_of_mem ?_ hjpw1
      intro a b ha hb hne hc
      exact hne (tokenize_inj (hjname a ha) (hjname b hb) hc)
    have hjfold := jsonFold P (JsonCodec.generate_key P password salt) ivs jrecs [] [] 0
      (fun r _ p hp => absurd hp (List.not_mem_nil p))
      (fun r _ p hp => absurd hp (List.not_mem_nil p)) hjpwtok
    simp only [JsonCodec.obfuscate_json]
    rw [hjfold]
    simp only [List.nil_append]
    exact jsonEntries_eq_masterSpec P _ ivs jrecs 0

/-- Witness for the amended C2 at a concrete input. -/
theorem claim2_witness :
    (∀ r ∈ ([([65], [48])] : List (Bytes × Bytes)), WfRecord r) ∧
    (∀ r ∈ ([([67], [50])] : List (Bytes × Bytes)), ∀ x ∈ r.1, x < 256) ∧
    ((([([67], [50])] : List (Bytes × Bytes)).map Prod.fst).Nodup) ∧
    ((AppEnv.obfuscate_env_file toyPrims (serializeEnv [([65], [48])]) [1] [2]
        (List.replicate 16 0) [List.replicate 16 3]).1 =
      obfLinesSubkeySpec toyPrims (AppEnv.generate_key toyPrims [1] [2]
        (List.replicate 16 0)) [List.replicate 16 3] 0 [([65], [48])]) :=
  ⟨by decide, by decide, by decide,
   (claim2_subkey_derivation toyPrims [1] [2] (List.replicate 16 0)
     [List.replicate 16 3] [([65], [48])] [([67], [50])]
     (by decide) (by decide) (by decide)).1⟩

/-- Counterexample for C3: a comment line (no `'='`) is not emitted in the
obfuscated output of either line codec variant — the output is empty. -/
theorem claim3_counterexample :
    (61 ∉ ([35, 120, 10] : Bytes)) ∧
    (AppEnv.obfuscate_env_file toyPrims [[35, 120, 10]] [1] [2]
      (List.replicate 16 0) []).1 = [] ∧
    (SimpleEnv.obfuscate_env_file toyPrims [[35, 120, 10]] [1]
      (List.replicate 16 0) []).1 = [] := by decide

/-- C3 amended: lines without `'='` are silently dropped by the line codecs'
obfuscation — the run is identical to the run on the document with those
lines removed, and every line of the obfuscated output contains `'='`. -/
theorem claim3_lines_without_eq_dropped (P : CryptoPrims)
    (input_lines : List Bytes) (password app_key salt : Bytes) (ivs : List Bytes) :
    (AppEnv.obfuscate_env_file P input_lines password app_key salt ivs =
      AppEnv.obfuscate_env_file P (input_lines.filter (fun l => decide (61 ∈ l)))
        password app_key salt ivs) ∧
    (∀ l ∈ (AppEnv.obfuscate_env_file P input_lines password app_key salt ivs).1,
      61 ∈ l) ∧
    (SimpleEnv.obfuscate_env_file P input_lines password salt ivs =
      SimpleEnv.obfuscate_env_file P (input_lines.filter (fun l => decide (61 ∈ l)))
        password salt ivs) ∧
    (∀ l ∈ (SimpleEnv.obfuscate_env_file P input_lines password salt ivs).1,
      61 ∈ l) := by
  refine ⟨?_, ?_, ?_, ?_⟩
  · simp only [AppEnv.obfuscate_env_file]
    rw [obfFold_filter P (AppEnv.generate_key P password app_key salt) ivs input_lines]
  · simp only [AppEnv.obfuscate_env_file]
    exact obfFold_lines_have_eq P (AppEnv.generate_key P password app_key salt) ivs
      input_lines ([], [], 0) (fun l hl => absurd hl (List.not_mem_nil l))
  · simp only [SimpleEnv.obfuscate_env_file, simple_obfStep_eq]
    rw [obfFold_filter P (SimpleEnv.generate_key P password salt) ivs input_lines]
  · simp only [SimpleEnv.obfuscate_env_file, simple_obfStep_eq]
    exact obfFold_lines_have_eq P (SimpleEnv.generate_key P password salt) ivs
      input_lines ([], [], 0) (fun l hl => absurd hl (List.not_mem_nil l))

/-- Counterexample for C4: deobfuscating a JSON document with a wrong
password raises (models Python's uncaught `ValueError` from the padding
check) instead of returning normally with per-record placeholders. -/
theorem claim4_counterexample :
    JsonCodec.deobfuscate_json toyPrims
      (JsonCodec.obfuscate_json toyPrims [([65], [66])] [2] (List.replicate 16 0)
        [List.replicate 16 3]).1
      (JsonCodec.obfuscate_json toyPrims [([65], [66])] [2] (List.replicate 16 0)
        [List.replicate 16 3]).2
      [11] (List.replicate 16 0) = Except.error PyError.valueError := by decide

/-- C4 amended: the line codecs recover per record — the app-key codec
writes a commented error placeholder for a record whose decryption fails and
processing of the remaining lines is unaffected, and the simple line codec
does the same — but the JSON codec raises on the first record whose
decryption fails and aborts the whole run. -/
theorem claim4_per_record_recovery :
    (∀ (P : CryptoPrims) (art : MappingArtifact) (password app_key l : Bytes)
       (ls : List Bytes),
      (AppEnv.deobfuscate_env_file P (l :: ls) art password app_key).1 =
        (AppEnv.deobLine P art.mapping
          (AppEnv.generate_key P password app_key
            (b64decode stdAlphabet art.saltB64)) l).1 ++
        (AppEnv.deobfuscate_env_file P ls art password app_key).1) ∧
    (∀ (P : CryptoPrims) (m : List (Bytes × Bytes)) (k line name : Bytes),
      61 ∈ line →
      dictGet (pySplitEq1 (pyStrip line)).1 m = some name →
      name ≠ [] →
      AppEnv.decrypt_value P (pySplitEq1 (pyStrip line)).2 k name = none →
      AppEnv.deobLine P m k line =
        ([diagErrHead ++ name ++ diagErrTailApp ++ [10]], [Msg.decryptErr name])) ∧
    (∀ (P : CryptoPrims) (m : List (Bytes × Bytes)) (k line name : Bytes)
       (rest : List Bytes) (st : List Bytes × List Msg),
      61 ∈ line →
      dictGet (pySplitEq1 (pyStrip line)).1 m = some name →
      SimpleEnv.decrypt_value P (pySplitEq1 (pyStrip line)).2 k name = none →
      SimpleEnv.deobfuscateLines P m k rest = Except.ok st →
      SimpleEnv.deobfuscateLines P m k (line :: rest) =
        Except.ok ((diagErrHead ++ name ++ diagErrTailSimple ++ [10]) :: st.1,
          Msg.decryptErr name :: st.2)) ∧
    (∀ (P : CryptoPrims) (mapping : List (Bytes × Bytes)) (password salt : Bytes)
       (tok enc name : Bytes) (rest : List (Bytes × Bytes)),
      dictGet tok mapping = some name →
      JsonCodec.decrypt_value P enc (JsonCodec.generate_key P password salt) = none →
      JsonCodec.deobfuscate_json P ((tok, enc) :: rest) mapping password salt =
        Except.error PyError.valueError) := by
  refine ⟨?_, ?_, ?_, ?_⟩
  · intro P art password app_key l ls
    exact appDeob_cons P art password app_key l ls
  · intro P m k line name h61 hget hne hdec
    exact deobLine_eq_err P m k line name h61 hget hne hdec
  · intro P m k line name rest st h61 hget hdec hrest
    exact simpleLines_err_cons P m k line name rest st h61 hget hdec hrest
  · intro P mapping password salt tok enc name rest hget hdec
    unfold JsonCodec.deobfuscate_json
    exact jsonEntries_valueerror P mapping _ [] tok enc name rest hget hdec

/-- Witness for the amended C4 at concrete inputs. -/
theorem claim4_witness :
    (61 ∈ ([97, 61, 10] : Bytes)) ∧
    dictGet (pySplitEq1 (pyStrip [97, 61, 10])).1 [([97], [98])] = some [98] ∧
    ([98] : Bytes) ≠ [] ∧
    AppEnv.decrypt_value toyPrims (pySplitEq1 (pyStrip [97, 61, 10])).2 [5] [98] =
      none ∧
    SimpleEnv.decrypt_value toyPrims (pySplitEq1 (pyStrip [97, 61, 10])).2 [5] [98] =
      none ∧
    SimpleEnv.deobfuscateLines toyPrims [([97], [98])] [5] [] = Except.ok ([], []) ∧
    dictGet [97] [([97], [98])] = some [98] ∧
    JsonCodec.decrypt_value toyPrims []
      (JsonCodec.generate_key toyPrims [5] [6]) = none ∧
    (AppEnv.deobLine toyPrims [([97], [98])] [5] [97, 61, 10] =
      ([diagErrHead ++ [98] ++ diagErrTailApp ++ [10]], [Msg.decryptErr [98]])) ∧
    (SimpleEnv.deobfuscateLines toyPrims [([97], [98])] [5] [[97, 61, 10]] =
      Except.ok
        ([diagErrHead ++ [98] ++ diagErrTailSimple ++ [10]], [Msg.decryptErr [98]])) ∧
    (JsonCodec.deobfuscate_json toyPrims [([97], [])] [([97], [98])] [5] [6] =
      Except.error PyError.valueError) :=
  ⟨by decide, by decide, by decide, by decide, by decide, by decide, by decide,
   by decide,
   claim4_per_record_recovery.2.1 toyPrims [([97], [98])] [5] [97, 61, 10] [98]
     (by decide) (by decide) (by decide) (by decide),
   claim4_per_record_recovery.2.2.1 toyPrims [([97], [98])] [5] [97, 61, 10] [98]
     [] ([], []) (by decide) (by decide) (by decide) (by decide),
   claim4_per_record_recovery.2.2.2 toyPrims [([97], [98])] [5] [6] [97] [] [98] []
     (by decide) (by decide)⟩

/-- Counterexample for C5: a token missing from the mapping aborts the
simple line codec and the JSON codec with `KeyError` instead of being
recorded per-record. -/
theorem claim5_counterexample :
    SimpleEnv.deobfuscate_env_file toyPrims [[97, 61, 10]]
      (MappingArtifact.mk [] [] none) [5] = Except.error (PyError.keyError [97]) ∧
    JsonCodec.deobfuscate_json toyPrims [([97], [5])] [] [5] [6] =
      Except.error (PyError.keyError [97]) := by decide

/-- C5 amended: only the app-key line codec records an unknown token as a
commented-out diagnostic line and continues with the remaining records; the
simple line codec and the JSON codec raise `KeyError` on the first unknown
token and abort the run. -/
theorem claim5_unknown_token :
    (∀ (P : CryptoPrims) (art : MappingArtifact) (password app_key l : Bytes)
       (ls : List Bytes),
      (AppEnv.deobfuscate_env_file P (l :: ls) art password app_key).1 =
        (AppEnv.deobLine P art.mapping
          (AppEnv.generate_key P password app_key
            (b64decode stdAlphabet art.saltB64)) l).1 ++
        (AppEnv.deobfuscate_env_file P ls art password app_key).1) ∧
    (∀ (P : CryptoPrims) (m : List (Bytes × Bytes)) (k line : Bytes),
      61 ∈ line →
      dictGet (pySplitEq1 (pyStrip line)).1 m = none →
      AppEnv.deobLine P m k line =
        ([diagUnknown ++ (pySplitEq1 (pyStrip line)).1 ++ [10]],
         [Msg.unknownKey (pySplitEq1 (pyStrip line)).1])) ∧
    (∀ (P : CryptoPrims) (m : List (Bytes × Bytes)) (k line : Bytes)
       (rest : List Bytes),
      61 ∈ line →
      dictGet (pySplitEq1 (pyStrip line)).1 m = none →
      SimpleEnv.deobfuscateLines P m k (line :: rest) =
        Except.error (PyError.keyError (pySplitEq1 (pyStrip line)).1)) ∧
    (∀ (P : CryptoPrims) (mapping : List (Bytes × Bytes)) (password salt : Bytes)
       (tok enc : Bytes) (rest : List (Bytes × Bytes)),
      dictGet tok mapping = none →
      JsonCodec.deobfuscate_json P ((tok, enc) :: rest) mapping password salt =
        Except.error (PyError.keyError tok)) := by
  refine ⟨?_, ?_, ?_, ?_⟩
  · intro P art password app_key l ls
    exact appDeob_cons P art password app_key l ls
  · intro P m k line h61 hget
    exact deobLine_eq_unknown P m k line h61 hget
  · intro P m k line rest h61 hget
    exact simpleLines_keyerror P m k line rest h61 hget
  · intro P mapping password salt tok enc rest hget
    unfold JsonCodec.deobfuscate_json
    exact jsonEntries_keyerror P mapping _ [] tok enc rest hget

/-- Witness for the amended C5 at concrete inputs. -/
theorem claim5_witness :
    (61 ∈ ([97, 61, 10] : Bytes)) ∧
    dictGet (pySplitEq1 (pyStrip [97, 61, 10])).1 [] = none ∧
    dictGet [97] ([] : List (Bytes × Bytes)) = none ∧
    (AppEnv.deobLine toyPrims [] [5] [97, 61, 10] =
      ([diagUnknown ++ (pySplitEq1 (pyStrip [97, 61, 10])).1 ++ [10]],
       [Msg.unknownKey (pySplitEq1 (pyStrip [97, 61, 10])).1])) ∧
    (SimpleEnv.deobfuscateLines toyPrims [] [5] [[97, 61, 10]] =
      Except.error (PyError.keyError (pySplitEq1 (pyStrip [97, 61, 10])).1)) ∧
    (JsonCodec.deobfuscate_json toyPrims [([97], [5])] [] [5] [6] =
      Except.error (PyError.keyError [97])) :=
  ⟨by decide, by decide, by decide,
   claim5_unknown_token.2.1 toyPrims [] [5] [97, 61, 10] (by decide) (by decide),
   claim5_unknown_token.2.2.1 toyPrims [] [5] [97, 61, 10] [] (by decide) (by decide),
   claim5_unknown_token.2.2.2 toyPrims [] [5] [6] [97] [5] [] (by decide)⟩

/-- Counterexample for C6: with a two-record input document, after the first
line has been processed the first obfuscated record line has already been
written to the output file, although the document transform is not yet
complete — so a failure at the second record leaves a partial obfuscated
document on disk. -/
theorem claim6_counterexample :
    1 < ([[65, 61, 48, 10], [66, 61, 49, 10]] : List Bytes).length ∧
    AppEnv.obfuscate_env_written toyPrims [[65, 61, 48, 10], [66, 61, 49, 10]]
      [1] [2] (List.replicate 16 0) [List.replicate 16 3, List.replicate 16 4] 1 ≠
      [] := by decide

/-- C6 amended: the line codecs write the obfuscated output incrementally:
after `k` input lines are processed, the output file holds exactly the
obfuscated record lines of those `k` lines — a prefix of the final output —
so a failure mid-pass leaves those lines written; only the mapping file
write waits for the whole pass. -/
theorem claim6_streaming_writes (P : CryptoPrims) (input_lines : List Bytes)
    (password app_key salt : Bytes) (ivs : List Bytes) (k : Nat) :
    (AppEnv.obfuscate_env_written P input_lines password app_key salt ivs k =
      (AppEnv.obfuscate_env_file P (input_lines.take k) password app_key salt ivs).1) ∧
    (AppEnv.obfuscate_env_written P input_lines password app_key salt ivs k <+:
      (AppEnv.obfuscate_env_file P input_lines password app_key salt ivs).1) ∧
    (SimpleEnv.obfuscate_env_written P input_lines password salt ivs k =
      (SimpleEnv.obfuscate_env_file P (input_lines.take k) password salt ivs).1) ∧
    (SimpleEnv.obfuscate_env_written P input_lines password salt ivs k <+:
      (SimpleEnv.obfuscate_env_file P input_lines password salt ivs).1) := by
  refine ⟨rfl, ?_, rfl, ?_⟩
  · have hsplit : input_lines.foldl
        (AppEnv.obfStep P (AppEnv.generate_key P password app_key salt) ivs)
        ([], [], 0) =
        (input_lines.drop k).foldl
          (AppEnv.obfStep P (AppEnv.generate_key P password app_key salt) ivs)
          ((input_lines.take k).foldl
            (AppEnv.obfStep P (AppEnv.generate_key P password app_key salt) ivs)
            ([], [], 0)) := by
      rw [← List.foldl_append, List.take_append_drop]
    show ((input_lines.take k).foldl
      (AppEnv.obfStep P (AppEnv.generate_key P password app_key salt) ivs)
      ([], [], 0)).1 <+:
      (input_lines.foldl
        (AppEnv.obfStep P (AppEnv.generate_key P password app_key salt) ivs)
        ([], [], 0)).1
    rw [hsplit]
    exact obfFold_monotone P _ ivs (input_lines.drop k) _
  · have hsplit : input_lines.foldl
        (AppEnv.obfStep P (SimpleEnv.generate_key P password salt) ivs)
        ([], [], 0) =
        (input_lines.drop k).foldl
          (AppEnv.obfStep P (SimpleEnv.generate_key P password salt) ivs)
          ((input_lines.take k).foldl
            (AppEnv.obfStep P (SimpleEnv.generate_key P password salt) ivs)
            ([], [], 0)) := by
      rw [← List.foldl_append, List.take_append_drop]
    show ((input_lines.take k).foldl
      (SimpleEnv.obfStep P (SimpleEnv.generate_key P password salt) ivs)
      ([], [], 0)).1 <+:
      (input_lines.foldl
        (SimpleEnv.obfStep P (SimpleEnv.generate_key P password salt) ivs)
        ([], [], 0)).1
    rw [simple_obfStep_eq, hsplit]
    exact obfFold_monotone P _ ivs (input_lines.drop k) _
